import Mathlib

/-!
Verification development for the sparse tensor storage codegen
(SparseTensorCodegen.cpp).  The codegen pass emits IR that implements a
multi-level sparse tensor storage scheme; this file gives a shallow
embedding of the storage semantics realised by the emitted IR
(allocation, ordered insertion, finalization, expand/compress bulk
insertion, pack/unpack and convert) and proves properties about it.

Buffers are modelled by their occupied contents (a growable buffer is a
`List Nat`; a push-back appends, reallocation/capacity bookkeeping does
not change occupied contents and is not modelled).  Out-of-range loads
return 0 and out-of-range stores are dropped; the embedded operations
never perform them on the states the theorems quantify over.
-/

namespace SparseCodegen

/-- Dimension/level type (DLT) with the ordered/unique qualifiers used by
the codegen (`isCompressedDLT`, `isSingletonDLT`, `isDenseDLT`).  The
`compressedWithHi` variants are not modelled: `genEndInsert` hard-stops
on them. -/
inductive DLT where
  | dense : DLT
  | compressed (ordered unique : Bool) : DLT
  | singleton (ordered unique : Bool) : DLT
deriving DecidableEq, Repr

/-- One storage level: its level type plus its (static) level size, as
recorded in the storage specifier by `createAllocFields`. -/
structure Lvl where
  dlt : DLT
  size : Nat
deriving DecidableEq, Repr

instance : Inhabited Lvl := ⟨⟨DLT.dense, 0⟩⟩

def DLT.isCompressed : DLT → Bool
  | .compressed _ _ => true
  | _ => false

def DLT.isDense : DLT → Bool
  | .dense => true
  | _ => false

def DLT.isSingleton : DLT → Bool
  | .singleton _ _ => true
  | _ => false

/-- `stt.isUniqueLvl`: dense levels count as unique; compressed and
singleton levels carry an explicit flag. -/
def DLT.isUnique : DLT → Bool
  | .dense => true
  | .compressed _ u => u
  | .singleton _ u => u

/-- `stt.isOrderedLvl`. -/
def DLT.isOrdered : DLT → Bool
  | .dense => true
  | .compressed o _ => o
  | .singleton o _ => o

/-- Level scheme lookup (`stt.getLvlType` plus the level size). -/
def lvlAt (sch : List Lvl) (l : Nat) : Lvl := sch.getD l default

/-- The physical buffers of one storage instance: one position array per
level (only used at compressed levels), one coordinate array per level,
and the value array.  Only occupied contents are modelled. -/
structure Storage where
  pos : List (List Nat)
  crd : List (List Nat)
  vals : List Nat
deriving DecidableEq, Repr

/-- Per-level buffer access (out of range yields the empty buffer). -/
def getBuf (bufs : List (List Nat)) (l : Nat) : List Nat := bufs.getD l []

def Storage.setPosBuf (s : Storage) (l : Nat) (b : List Nat) : Storage :=
  ⟨s.pos.set l b, s.crd, s.vals⟩

def Storage.setCrdBuf (s : Storage) (l : Nat) (b : List Nat) : Storage :=
  ⟨s.pos, s.crd.set l b, s.vals⟩

def Storage.setVals (s : Storage) (v : List Nat) : Storage :=
  ⟨s.pos, s.crd, v⟩

/-- `allocSchemeForRank`'s loop over the levels from `startLvl` on: a
running `linear` size is compounded across dense levels; the first
compressed level receives `linear` zero position entries (maintaining
the "linear + 1" length property) and the walk stops; a singleton level
stops the walk with nothing to do; if every remaining level is dense the
value array receives `linear` zero entries. -/
def allocSchemeLoop (s : Storage) : List Lvl → Nat → Nat → Storage
  | [], _, linear => s.setVals (s.vals ++ List.replicate linear 0)
  | lv :: rest, l, linear =>
    match lv.dlt with
    | .compressed _ _ => s.setPosBuf l (getBuf s.pos l ++ List.replicate linear 0)
    | .singleton _ _ => s
    | .dense => allocSchemeLoop s rest (l + 1) (linear * lv.size)

def allocSchemeForRank (sch : List Lvl) (s : Storage) (startLvl : Nat) : Storage :=
  allocSchemeLoop s (sch.drop startLvl) startLvl 1

/-- The initial position fields created by `createAllocFields`: every
compressed level gets a single leading zero position entry. -/
def initPosFields : List Lvl → List (List Nat) :=
  List.map (fun lv => match lv.dlt with | .compressed _ _ => [0] | _ => [])

/-- `createAllocFields`: allocate all fields empty, give every
compressed level its leading zero position entry, then run scheme
propagation from level 0. -/
def createAllocFields (sch : List Lvl) : Storage :=
  allocSchemeForRank sch ⟨initPosFields sch, sch.map (fun _ => []), []⟩ 0

/-- `genCompressed`: the compressed-level block of the insertion path.
Loads `pstart`/`pstop` from the position array at
`parentPos`/`parentPos+1`; on an empty range (first insertion for this
parent) stores the current coordinate occupancy `msz` back to
`positions[parentPos]` when `lvl > 0`; the already-present fast path
requires the level to be unique, a non-empty range and the last
coordinate of the range equal to the inserted one; otherwise the
coordinate is appended, `positions[parentPos+1]` is set to `msz+1`, and
the next level is prepared via `allocSchemeForRank` when one exists.
Returns the updated storage and the next parent position. -/
def genCompressed (sch : List Lvl) (coords : List Nat) (s : Storage)
    (parentPos lvl : Nat) : Storage × Nat :=
  let posL := getBuf s.pos lvl
  let crdL := getBuf s.crd lvl
  let pstart := posL.getD parentPos 0
  let pstop := posL.getD (parentPos + 1) 0
  let plast := pstop - 1
  let msz := crdL.length
  let c := coords.getD lvl 0
  let present : Bool :=
    (lvlAt sch lvl).dlt.isUnique &&
      (decide (pstart < pstop) && decide (crdL.getD plast 0 = c))
  let s1 :=
    if pstart < pstop then s
    else if 0 < lvl then s.setPosBuf lvl (posL.set parentPos msz) else s
  if present then (s1, plast)
  else
    let s2 := s1.setPosBuf lvl ((getBuf s1.pos lvl).set (parentPos + 1) (msz + 1))
    let s3 := s2.setCrdBuf lvl (getBuf s2.crd lvl ++ [c])
    let s4 := if lvl + 1 < sch.length then allocSchemeForRank sch s3 (lvl + 1) else s3
    (s4, msz)

/-- The per-level walk of `SparseInsertGenerator::genImplementation`:
dense levels compose the parent position row-major, singleton levels
append their coordinate, compressed levels run `genCompressed`. -/
def insertLoop (sch : List Lvl) (coords : List Nat) :
    List Lvl → Nat → Storage → Nat → Storage × Nat
  | [], _, s, parentPos => (s, parentPos)
  | lv :: rest, l, s, parentPos =>
    match lv.dlt with
    | .compressed _ _ =>
      let r := genCompressed sch coords s parentPos l
      insertLoop sch coords rest (l + 1) r.1 r.2
    | .singleton _ _ =>
      insertLoop sch coords rest (l + 1)
        (s.setCrdBuf l (getBuf s.crd l ++ [coords.getD l 0])) parentPos
    | .dense =>
      insertLoop sch coords rest (l + 1) s (lv.size * parentPos + coords.getD l 0)

def lastIsDense (sch : List Lvl) : Bool :=
  match sch.getLast? with
  | some lv => lv.dlt.isDense
  | none => false

/-- `insert` (`genImplementation`): walk all levels from parent position
0, then append the value when the last level is not dense, or store it
directly at the computed position when it is. -/
def insert (sch : List Lvl) (s : Storage) (coords : List Nat) (v : Nat) : Storage :=
  let r := insertLoop sch coords sch 0 s 0
  if lastIsDense sch then r.1.setVals (r.1.vals.set r.2 v)
  else r.1.setVals (r.1.vals ++ [v])

/-- The position-cleanup loop body of `genEndInsert`, carrying the value
of the previous slot: a zero slot is patched to the carried value. -/
def posCleanLoop : Nat → List Nat → List Nat
  | _, [] => []
  | oldv, x :: rest =>
    (if x = 0 then oldv else x) :: posCleanLoop (if x = 0 then oldv else x) rest

/-- One pass of position cleanup: slot 0 is only loaded (as the initial
carried value), slots 1.. are patched when they still hold the zero
sentinel. -/
def posClean : List Nat → List Nat
  | [] => []
  | x :: rest => x :: posCleanLoop x rest

/-- One level of `genEndInsert`: a compressed level at depth greater
than zero gets its position array cleaned, every other level is left
alone. -/
def endInsertStep (lv : Lvl) (l : Nat) (s : Storage) : Storage :=
  if lv.dlt.isCompressed = true then
    (if 0 < l then s.setPosBuf l (posClean (getBuf s.pos l)) else s)
  else s

/-- `genEndInsert`: every compressed level at depth greater than zero
gets its position array cleaned; all other buffers are untouched. -/
def endInsertLoop : List Lvl → Nat → Storage → Storage
  | [], _, s => s
  | lv :: rest, l, s => endInsertLoop rest (l + 1) (endInsertStep lv l s)

def endInsert (sch : List Lvl) (s : Storage) : Storage :=
  endInsertLoop sch 0 s

/-- A sequence of ordered one-at-a-time insertions. -/
def insertAll (sch : List Lvl) (s : Storage) (entries : List (List Nat × Nat)) : Storage :=
  entries.foldl (fun st e => insert sch st e.1 e.2) s

/-- The rank-2 CSR-style scheme of the spec's concrete scenario:
level 0 dense of size 3, level 1 compressed (ordered, unique) of size 3. -/
def schemeDC : List Lvl := [⟨DLT.dense, 3⟩, ⟨DLT.compressed true true, 3⟩]

/-- C1: on the scheme [Dense, Compressed(ordered,unique)] with dims
(3,3), inserting (0,0)=1, (0,2)=2, (2,1)=3 in that order and finalizing
yields position array [0,2,2,3], coordinate array [0,2,1] and value
array [1,2,3]. -/
theorem c1_concrete_scenario :
    endInsert schemeDC
      (insertAll schemeDC (createAllocFields schemeDC)
        [([0, 0], 1), ([0, 2], 2), ([2, 1], 3)]) =
      ⟨[[], [0, 2, 2, 3]], [[], [0, 2, 1]], [1, 2, 3]⟩ := by decide

/-! ### Buffer access lemmas -/

theorem getBuf_set_self (bufs : List (List Nat)) (i : Nat) (b : List Nat)
    (h : i < bufs.length) : getBuf (bufs.set i b) i = b := by
  simp [getBuf, List.getD_eq_getElem?_getD, List.getElem?_set_self', h]

theorem getBuf_set_ne (bufs : List (List Nat)) (i j : Nat) (b : List Nat)
    (h : i ≠ j) : getBuf (bufs.set i b) j = getBuf bufs j := by
  simp [getBuf, List.getD_eq_getElem?_getD, List.getElem?_set_ne h]

theorem getBuf_set_posClean (bufs : List (List Nat)) (i : Nat) :
    getBuf (bufs.set i (posClean (getBuf bufs i))) i = posClean (getBuf bufs i) := by
  by_cases h : i < bufs.length
  · exact getBuf_set_self bufs i _ h
  · have hb : getBuf bufs i = [] := by
      simp [getBuf, List.getD_eq_getElem?_getD, List.getElem?_eq_none (Nat.le_of_not_lt h)]
    rw [List.set_eq_of_length_le (Nat.le_of_not_lt h), hb]
    rfl

@[simp] theorem setPosBuf_crd (s : Storage) (l : Nat) (b : List Nat) :
    (s.setPosBuf l b).crd = s.crd := rfl

theorem setPosBuf_pos (s : Storage) (l : Nat) (b : List Nat) :
    (s.setPosBuf l b).pos = s.pos.set l b := rfl

theorem setCrdBuf_crd (s : Storage) (l : Nat) (b : List Nat) :
    (s.setCrdBuf l b).crd = s.crd.set l b := rfl

@[simp] theorem setPosBuf_vals (s : Storage) (l : Nat) (b : List Nat) :
    (s.setPosBuf l b).vals = s.vals := rfl

@[simp] theorem setCrdBuf_pos (s : Storage) (l : Nat) (b : List Nat) :
    (s.setCrdBuf l b).pos = s.pos := rfl

@[simp] theorem setCrdBuf_vals (s : Storage) (l : Nat) (b : List Nat) :
    (s.setCrdBuf l b).vals = s.vals := rfl

@[simp] theorem setVals_pos (s : Storage) (v : List Nat) :
    (s.setVals v).pos = s.pos := rfl

@[simp] theorem setVals_crd (s : Storage) (v : List Nat) :
    (s.setVals v).crd = s.crd := rfl

@[simp] theorem setVals_vals (s : Storage) (v : List Nat) :
    (s.setVals v).vals = v := rfl

/-! ### Scheme propagation lemmas -/

/-- Scheme propagation never touches coordinate buffers. -/
theorem allocSchemeLoop_crd :
    ∀ (rest : List Lvl) (l linear : Nat) (s : Storage),
      (allocSchemeLoop s rest l linear).crd = s.crd := by
  intro rest
  induction rest with
  | nil => intro l linear s; rfl
  | cons lv rest' ih =>
    intro l linear s
    cases hd : lv.dlt with
    | dense => simp [allocSchemeLoop, hd, ih]
    | compressed o u => simp [allocSchemeLoop, hd]
    | singleton o u => simp [allocSchemeLoop, hd]

/-- Scheme propagation over a non-empty level list whose last level is
not dense stops before reaching the value array. -/
theorem allocSchemeLoop_vals_lastNotDense :
    ∀ (rest : List Lvl) (l linear : Nat) (s : Storage),
      lastIsDense rest = false → rest ≠ [] →
      (allocSchemeLoop s rest l linear).vals = s.vals := by
  intro rest
  induction rest with
  | nil => intro l linear s _ hne; exact absurd rfl hne
  | cons lv rest' ih =>
    intro l linear s hlast _
    cases hd : lv.dlt with
    | dense =>
      cases rest' with
      | nil => simp [lastIsDense, hd, DLT.isDense] at hlast
      | cons lv2 rest'' =>
        have hlast' : lastIsDense (lv2 :: rest'') = false := by
          rw [lastIsDense] at hlast ⊢
          rwa [List.getLast?_cons_cons] at hlast
        simp only [allocSchemeLoop, hd]
        exact ih (l + 1) (linear * lv.size) s hlast' (by simp)
    | compressed o u => simp [allocSchemeLoop, hd]
    | singleton o u => simp [allocSchemeLoop, hd]

/-- Dropping fewer elements than the length preserves the last level. -/
theorem lastIsDense_drop (sch : List Lvl) (k : Nat) (h : k < sch.length) :
    lastIsDense (sch.drop k) = lastIsDense sch := by
  rw [lastIsDense, lastIsDense, List.getLast?_drop, if_neg (Nat.not_le.mpr h)]

/-- `genCompressed` never changes coordinate buffers of other levels and
only appends to its own; here: it never touches the value array when the
scheme's last level is not dense. -/
theorem genCompressed_vals (sch : List Lvl) (coords : List Nat) (s : Storage)
    (p lvl : Nat) (h : lastIsDense sch = false) :
    ((genCompressed sch coords s p lvl).1).vals = s.vals := by
  have hrank : ∀ (s' : Storage), lvl + 1 < sch.length →
      (allocSchemeForRank sch s' (lvl + 1)).vals = s'.vals := by
    intro s' hlt
    rw [allocSchemeForRank]
    refine allocSchemeLoop_vals_lastNotDense _ _ _ _ ?_ ?_
    · rw [lastIsDense_drop sch (lvl + 1) hlt]; exact h
    · intro hnil
      have := congrArg List.length hnil
      simp at this
      omega
  simp only [genCompressed]
  split
  · dsimp only
    split
    · rfl
    · split <;> rfl
  · dsimp only
    split
    · rename_i hlt
      rw [hrank _ hlt]
      simp only [setCrdBuf_vals, setPosBuf_vals]
      split
      · rfl
      · split <;> rfl
    · simp only [setCrdBuf_vals, setPosBuf_vals]
      split
      · rfl
      · split <;> rfl

/-- The insertion walk never touches the value array when the scheme's
last level is not dense. -/
theorem insertLoop_vals (sch : List Lvl) (coords : List Nat)
    (h : lastIsDense sch = false) :
    ∀ (rest : List Lvl) (l : Nat) (s : Storage) (p : Nat),
      ((insertLoop sch coords rest l s p).1).vals = s.vals := by
  intro rest
  induction rest with
  | nil => intro l s p; rfl
  | cons lv rest' ih =>
    intro l s p
    cases hd : lv.dlt with
    | dense => simp [insertLoop, hd, ih]
    | compressed o u =>
      simp only [insertLoop, hd]
      rw [ih]
      exact genCompressed_vals sch coords s p l h
    | singleton o u => simp [insertLoop, hd, ih]

/-- C10: when the last level is not dense, every insert appends its
value (and only its value) to the value array — also on the
already-present fast path, which skips position/coordinate mutation but
not the value append. -/
theorem c10_value_always_appended (sch : List Lvl) (s : Storage)
    (coords : List Nat) (v : Nat) (h : lastIsDense sch = false) :
    (insert sch s coords v).vals = s.vals ++ [v] := by
  rw [insert]
  simp only [h, Bool.false_eq_true, if_false, setVals_vals]
  rw [insertLoop_vals sch coords h]

/-- Rank-1 scheme with a single unique compressed level (dim 3). -/
def schemeCU : List Lvl := [⟨DLT.compressed true true, 3⟩]

/-- Witness for C10 at a concrete input. -/
theorem c10_value_always_appended_witness :
    (insert schemeCU (insert schemeCU (createAllocFields schemeCU) [1] 5) [1] 7).vals =
      (insert schemeCU (createAllocFields schemeCU) [1] 5).vals ++ [7] :=
  c10_value_always_appended schemeCU _ [1] 7 rfl

/-- C2 counterexample: on a unique compressed level, inserting the same
full coordinate tuple (1) twice — even with the same value — leaves the
value array with two entries, while a single insert leaves one: the
second insert appends rather than overwriting, so the storage does not
hold "the same number of stored entries in every buffer". -/
theorem c2_counterexample :
    ((insert schemeCU (insert schemeCU (createAllocFields schemeCU) [1] 5) [1] 5).vals).length ≠
      ((insert schemeCU (createAllocFields schemeCU) [1] 5).vals).length := by
  decide

/-! ### C3: non-unique compressed levels always append -/

/-- On a compressed level that is not marked unique, `genCompressed`
unconditionally takes the not-present path: the coordinate is appended
(whether or not it equals the last coordinate of the parent's range)
and the returned next position is the pre-insert coordinate count. -/
theorem genCompressed_crd_nonunique (sch : List Lvl) (coords : List Nat)
    (s : Storage) (p lvl : Nat) (o : Bool)
    (hdlt : (lvlAt sch lvl).dlt = DLT.compressed o false)
    (hlen : lvl < s.crd.length) :
    getBuf ((genCompressed sch coords s p lvl).1).crd lvl =
      getBuf s.crd lvl ++ [coords.getD lvl 0] ∧
    ((genCompressed sch coords s p lvl).1).crd.length = s.crd.length ∧
    (genCompressed sch coords s p lvl).2 = (getBuf s.crd lvl).length := by
  simp only [genCompressed, hdlt, DLT.isUnique, Bool.false_and, Bool.false_eq_true,
    if_false]
  have halloc : ∀ (s' : Storage),
      (if lvl + 1 < sch.length then allocSchemeForRank sch s' (lvl + 1) else s').crd =
        s'.crd := by
    intro s'
    split
    · rw [allocSchemeForRank, allocSchemeLoop_crd]
    · rfl
  refine ⟨?_, ?_, True.intro⟩
  · rw [halloc]
    simp only [setCrdBuf_crd, setPosBuf_crd, apply_ite Storage.crd, ite_self]
    exact getBuf_set_self _ _ _ hlen
  · rw [halloc]
    simp only [setCrdBuf_crd, setPosBuf_crd, apply_ite Storage.crd, ite_self,
      List.length_set]

/-- C3: on a compressed level not marked unique, the equality fast path
is unconditionally treated as "not present": inserting the same
coordinate twice under the same parent appends a new coordinate entry
each time, yielding two stored entries. -/
theorem c3_nonunique_double_append (sch : List Lvl) (coords : List Nat)
    (s : Storage) (p lvl : Nat) (o : Bool)
    (hdlt : (lvlAt sch lvl).dlt = DLT.compressed o false)
    (hlen : lvl < s.crd.length) :
    getBuf ((genCompressed sch coords
        ((genCompressed sch coords s p lvl).1) p lvl).1).crd lvl =
      getBuf s.crd lvl ++ [coords.getD lvl 0, coords.getD lvl 0] := by
  obtain ⟨h1, h2, -⟩ := genCompressed_crd_nonunique sch coords s p lvl o hdlt hlen
  obtain ⟨h1', -, -⟩ := genCompressed_crd_nonunique sch coords
    ((genCompressed sch coords s p lvl).1) p lvl o hdlt (h2 ▸ hlen)
  rw [h1', h1]
  simp

/-- Rank-1 scheme with a single non-unique compressed level (dim 3). -/
def schemeCN : List Lvl := [⟨DLT.compressed true false, 3⟩]

/-- Witness for C3 at a concrete input: the same coordinate inserted
twice under the same parent is stored twice. -/
theorem c3_nonunique_double_append_witness :
    getBuf ((genCompressed schemeCN [1]
        ((genCompressed schemeCN [1] (createAllocFields schemeCN) 0 0).1) 0 0).1).crd 0 =
      getBuf (createAllocFields schemeCN).crd 0 ++ [1, 1] :=
  c3_nonunique_double_append schemeCN [1] (createAllocFields schemeCN) 0 0 true
    rfl (by decide)

/-! ### C4: finalization patches sentinel slots at depth > 0 only -/

theorem posCleanLoop_length :
    ∀ (L : List Nat) (oldv : Nat), (posCleanLoop oldv L).length = L.length := by
  intro L
  induction L with
  | nil => intro o; rfl
  | cons x rest ih => intro o; simp only [posCleanLoop, List.length_cons, ih]

theorem posClean_length (L : List Nat) : (posClean L).length = L.length := by
  cases L with
  | nil => rfl
  | cons x rest => simp only [posClean, List.length_cons, posCleanLoop_length]

theorem posClean_getD_zero (L : List Nat) : (posClean L).getD 0 0 = L.getD 0 0 := by
  cases L <;> rfl

theorem posCleanLoop_getD_succ :
    ∀ (L : List Nat) (oldv i : Nat), i + 1 < L.length →
      (posCleanLoop oldv L).getD (i + 1) 0 =
        if L.getD (i + 1) 0 = 0 then (posCleanLoop oldv L).getD i 0
        else L.getD (i + 1) 0 := by
  intro L
  induction L with
  | nil => intro o i h; simp at h
  | cons x rest ih =>
    intro o i h
    cases i with
    | zero =>
      cases rest with
      | nil => simp at h
      | cons z rest' =>
        simp only [posCleanLoop, List.getD_cons_succ, List.getD_cons_zero]
    | succ i' =>
      have h' : i' + 1 < rest.length := by
        simp only [List.length_cons] at h
        omega
      simp only [posCleanLoop, List.getD_cons_succ]
      exact ih _ i' h'

theorem posClean_getD_succ (L : List Nat) (i : Nat) (h : i + 1 < L.length) :
    (posClean L).getD (i + 1) 0 =
      if L.getD (i + 1) 0 = 0 then (posClean L).getD i 0 else L.getD (i + 1) 0 := by
  cases L with
  | nil => simp at h
  | cons x rest =>
    cases i with
    | zero =>
      cases rest with
      | nil => simp at h
      | cons z rest' =>
        simp only [posClean, posCleanLoop, List.getD_cons_succ, List.getD_cons_zero]
    | succ i' =>
      have h' : i' + 1 < rest.length := by
        simp only [List.length_cons] at h
        omega
      simp only [posClean, List.getD_cons_succ]
      exact posCleanLoop_getD_succ rest x i' h'

theorem endInsertStep_crd (lv : Lvl) (l : Nat) (s : Storage) :
    (endInsertStep lv l s).crd = s.crd := by
  rw [endInsertStep]
  split
  · split <;> rfl
  · rfl

theorem endInsertStep_vals (lv : Lvl) (l : Nat) (s : Storage) :
    (endInsertStep lv l s).vals = s.vals := by
  rw [endInsertStep]
  split
  · split <;> rfl
  · rfl

theorem endInsertStep_pos_ne (lv : Lvl) (l m : Nat) (s : Storage) (h : l ≠ m) :
    getBuf (endInsertStep lv l s).pos m = getBuf s.pos m := by
  rw [endInsertStep]
  split
  · split
    · exact getBuf_set_ne _ _ _ _ h
    · rfl
  · rfl

theorem endInsertStep_pos_self (lv : Lvl) (l : Nat) (s : Storage) :
    getBuf (endInsertStep lv l s).pos l =
      if lv.dlt.isCompressed = true ∧ 0 < l then posClean (getBuf s.pos l)
      else getBuf s.pos l := by
  rw [endInsertStep]
  split
  · rename_i hcomp
    split
    · rename_i h0
      rw [if_pos ⟨hcomp, h0⟩]
      exact getBuf_set_posClean _ _
    · rename_i h0
      rw [if_neg (fun hc => h0 hc.2)]
  · rename_i hcomp
    rw [if_neg (fun hc => hcomp hc.1)]

theorem endInsertLoop_crd :
    ∀ (rest : List Lvl) (l : Nat) (s : Storage),
      (endInsertLoop rest l s).crd = s.crd := by
  intro rest
  induction rest with
  | nil => intro l s; rfl
  | cons lv rest' ih =>
    intro l s
    rw [endInsertLoop, ih, endInsertStep_crd]

theorem endInsertLoop_vals :
    ∀ (rest : List Lvl) (l : Nat) (s : Storage),
      (endInsertLoop rest l s).vals = s.vals := by
  intro rest
  induction rest with
  | nil => intro l s; rfl
  | cons lv rest' ih =>
    intro l s
    rw [endInsertLoop, ih, endInsertStep_vals]

/-- Pointwise description of the whole `genEndInsert` walk on position
buffers: level `l` is cleaned exactly when the walk covers it, it is
compressed and it is at depth greater than zero. -/
theorem endInsertLoop_posBuf :
    ∀ (rest : List Lvl) (l0 : Nat) (s : Storage) (l : Nat),
      getBuf (endInsertLoop rest l0 s).pos l =
        if l0 ≤ l ∧ l - l0 < rest.length ∧
            (rest.getD (l - l0) default).dlt.isCompressed = true ∧ 0 < l
        then posClean (getBuf s.pos l)
        else getBuf s.pos l := by
  intro rest
  induction rest with
  | nil =>
    intro l0 s l
    rw [endInsertLoop, if_neg]
    intro hcon
    exact absurd hcon.2.1 (by simp)
  | cons lv rest' ih =>
    intro l0 s l
    rw [endInsertLoop, ih]
    by_cases hll : l = l0
    · subst hll
      rw [if_neg (fun hcon => Nat.not_succ_le_self l hcon.1)]
      rw [endInsertStep_pos_self]
      have hidx : l - l = 0 := Nat.sub_self l
      by_cases hc : lv.dlt.isCompressed = true ∧ 0 < l
      · rw [if_pos hc, if_pos (by
          refine ⟨Nat.le_refl l, ?_, ?_, hc.2⟩
          · rw [hidx]; simp
          · rw [hidx]; simpa using hc.1)]
      · rw [if_neg hc, if_neg (fun hcon => hc ⟨by
          have := hcon.2.2.1
          rwa [hidx] at this, hcon.2.2.2⟩)]
    · have hpos : getBuf (endInsertStep lv l0 s).pos l = getBuf s.pos l :=
        endInsertStep_pos_ne lv l0 l s (fun he => hll (he.symm))
      rw [hpos]
      by_cases hlo : l0 + 1 ≤ l
      · have hsub : l - l0 = (l - (l0 + 1)) + 1 := by omega
        by_cases hcond : l - (l0 + 1) < rest'.length ∧
            (rest'.getD (l - (l0 + 1)) default).dlt.isCompressed = true ∧ 0 < l
        · rw [if_pos ⟨hlo, hcond⟩, if_pos (by
            refine ⟨by omega, by simp only [List.length_cons]; omega, ?_, hcond.2.2⟩
            rw [hsub, List.getD_cons_succ]
            exact hcond.2.1)]
        · rw [if_neg (fun hcon => hcond ⟨hcon.2.1, hcon.2.2⟩),
            if_neg (fun hcon => hcond ⟨by
              have := hcon.2.1
              simp only [List.length_cons] at this
              omega, by
              have := hcon.2.2.1
              rwa [hsub, List.getD_cons_succ] at this, hcon.2.2.2⟩)]
      · rw [if_neg (fun hcon => hlo hcon.1), if_neg (fun hcon => by
          have h1 := hcon.1
          exact hll (by omega))]

/-- C4: `genEndInsert` patches, at every compressed level at depth
greater than zero, each position slot still holding the zero sentinel to
the value of the immediately preceding (already patched) slot, leaving
non-zero slots and slot 0 alone; position arrays of a compressed level
at depth 0 are never modified. -/
theorem c4_endInsert_cleanup (sch : List Lvl) (s : Storage) (l : Nat)
    (hl : l < sch.length) (hc : (lvlAt sch l).dlt.isCompressed = true) :
    (0 < l →
      (getBuf (endInsert sch s).pos l).length = (getBuf s.pos l).length ∧
      (getBuf (endInsert sch s).pos l).getD 0 0 = (getBuf s.pos l).getD 0 0 ∧
      (∀ i, i + 1 < (getBuf s.pos l).length →
        (getBuf (endInsert sch s).pos l).getD (i + 1) 0 =
          if (getBuf s.pos l).getD (i + 1) 0 = 0
          then (getBuf (endInsert sch s).pos l).getD i 0
          else (getBuf s.pos l).getD (i + 1) 0)) ∧
    (l = 0 → getBuf (endInsert sch s).pos l = getBuf s.pos l) := by
  constructor
  · intro h0
    have hbuf : getBuf (endInsert sch s).pos l = posClean (getBuf s.pos l) := by
      rw [endInsert, endInsertLoop_posBuf, if_pos]
      exact ⟨Nat.zero_le l, by simpa using hl, by simpa [lvlAt] using hc, h0⟩
    rw [hbuf]
    exact ⟨posClean_length _, posClean_getD_zero _,
      fun i hi => posClean_getD_succ _ i hi⟩
  · intro h0
    subst h0
    rw [endInsert, endInsertLoop_posBuf, if_neg]
    intro hcon
    exact Nat.lt_irrefl 0 hcon.2.2.2

/-- Witness for C4 at a concrete input: one slot of the patched
position array of compressed level 1 after finalizing the state reached
by inserting (2,1)=7 only. -/
theorem c4_endInsert_cleanup_witness :
    (getBuf (endInsert schemeDC
        (insert schemeDC (createAllocFields schemeDC) [2, 1] 7)).pos 1).getD 2 0 =
      if (getBuf (insert schemeDC (createAllocFields schemeDC) [2, 1] 7).pos 1).getD 2 0 = 0
      then (getBuf (endInsert schemeDC
          (insert schemeDC (createAllocFields schemeDC) [2, 1] 7)).pos 1).getD 1 0
      else (getBuf (insert schemeDC (createAllocFields schemeDC) [2, 1] 7).pos 1).getD 2 0 :=
  ((c4_endInsert_cleanup schemeDC
    (insert schemeDC (createAllocFields schemeDC) [2, 1] 7) 1
    (by decide) (by decide)).1 (by decide)).2.2 1 (by decide)

/-! ### C9: the dynamic-size count check precedes allocation -/

/-- Number of dynamic dimensions declared by a shape
(`getNumDynamicDims`). -/
def numDynamicDims (dimShape : List (Option Nat)) : Nat :=
  dimShape.countP (fun o => o.isNone)

/-- Resolution of dimension sizes (`createAllocFields`, "Build original
sizes"): static sizes are read off the shape, dynamic ones consume the
caller-supplied list in order. -/
def resolveDimSizes : List (Option Nat) → List Nat → List Nat
  | [], _ => []
  | some n :: rest, ds => n :: resolveDimSizes rest ds
  | none :: rest, ds => ds.headD 0 :: resolveDimSizes rest ds.tail

/-- Pairing of level types with the resolved sizes (identity
dimension-to-level ordering). -/
def buildScheme (dlts : List DLT) (sizes : List Nat) : List Lvl :=
  (dlts.zip sizes).map (fun q => ⟨q.1, q.2⟩)

/-- `SparseTensorAllocConverter::matchAndRewrite` (no-copy case) minus
the IR plumbing: the dynamic-size count check runs first and reports a
match failure; `createAllocFields` is invoked only after it passes. -/
def sparseTensorAlloc (dlts : List DLT) (dimShape : List (Option Nat))
    (dynSizes : List Nat) : Except String Storage :=
  if dynSizes.length ≠ numDynamicDims dimShape then
    Except.error "Got wrong number of dynamic sizes"
  else
    Except.ok (createAllocFields (buildScheme dlts (resolveDimSizes dimShape dynSizes)))

/-- C9: allocation with a wrong number of dynamic sizes reports the
failure; the error result carries no storage, so no buffer is ever
allocated or mutated on this path. -/
theorem c9_alloc_size_mismatch (dlts : List DLT) (dimShape : List (Option Nat))
    (dynSizes : List Nat) (h : dynSizes.length ≠ numDynamicDims dimShape) :
    sparseTensorAlloc dlts dimShape dynSizes =
      Except.error "Got wrong number of dynamic sizes" := by
  rw [sparseTensorAlloc, if_pos h]

/-- Witness for C9: one dynamic dimension declared, no dynamic size
supplied. -/
theorem c9_alloc_size_mismatch_witness :
    sparseTensorAlloc [DLT.dense, DLT.compressed true true] [some 3, none] [] =
      Except.error "Got wrong number of dynamic sizes" :=
  c9_alloc_size_mismatch _ _ _ (by decide)

/-! ### C7: pack then unpack round trip (unbatched ordered COO) -/

/-- The storage produced by `SparsePackOpConverter` for an unbatched
ordered-COO scheme: a two-entry position buffer for the leading
compressed level, the borrowed (flattened, array-of-structures)
coordinate buffer, the borrowed value buffer, and the specifier
occupied lengths it sets. -/
structure COOStorage where
  pos0 : List Nat
  crdAOS : List Nat
  vals : List Nat
  posMemSize : Nat
  crdMemSize : Nat
  valMemSize : Nat
deriving DecidableEq, Repr

/-- `SparsePackOpConverter` with zero batched levels: `batchedCount = 1`
and `nse` is the length of the value tensor, so the position buffer is
`[0, nse]`; coordinates and values are taken by reference (flattened);
the specifier records position size 2 and coordinate/value occupancy
`noe = nse`. -/
def packCOO (coords : List (List Nat)) (vals : List Nat) : COOStorage :=
  ⟨[0, vals.length], coords.flatten, vals, 2, vals.length, vals.length⟩

/-- `reallocOrSubView`: reallocate when the requested length exceeds the
buffer length (the grown region is unspecified; modelled as zeros), or
return a length-bounded subview otherwise. -/
def fitLen (n : Nat) (buf : List Nat) : List Nat :=
  if buf.length < n then buf ++ List.replicate (n - buf.length) 0 else buf.take n

/-- `memref.expand_shape` of a flat buffer into `n` rows of `r`
entries. -/
def unflattenRows : Nat → Nat → List Nat → List (List Nat)
  | 0, _, _ => []
  | n + 1, r, flat => flat.take r :: unflattenRows n r (flat.drop r)

/-- `genUnBatchedUnpackOp` with static result shapes: the value buffer
and the flat coordinate buffer are fitted to the requested lengths, the
flat coordinate buffer is expanded to `rows × rank`, and the returned
count is the value-memory occupancy from the specifier. -/
def unpackCOO (s : COOStorage) (nv rows rank : Nat) :
    List Nat × List (List Nat) × Nat :=
  (fitLen nv s.vals, unflattenRows rows rank (fitLen (rows * rank) s.crdAOS),
    s.valMemSize)

theorem unflattenRows_flatten :
    ∀ (rows : List (List Nat)) (rank : Nat), (∀ row ∈ rows, row.length = rank) →
      unflattenRows rows.length rank rows.flatten = rows := by
  intro rows
  induction rows with
  | nil => intro rank _; rfl
  | cons row rest ih =>
    intro rank hrow
    have hr : row.length = rank := hrow row (by simp)
    simp only [List.length_cons, List.flatten_cons, unflattenRows]
    rw [← hr, List.take_left, List.drop_left]
    rw [ih row.length (fun q hq => (hrow q (by simp [hq])).trans hr.symm)]

theorem flatten_length_of_rows (rows : List (List Nat)) (rank : Nat)
    (hrow : ∀ row ∈ rows, row.length = rank) :
    rows.flatten.length = rows.length * rank := by
  induction rows with
  | nil => simp
  | cons row rest ih =>
    simp only [List.flatten_cons, List.length_append, List.length_cons]
    rw [hrow row (by simp), ih (fun q hq => hrow q (by simp [hq]))]
    ring

/-- C7: for a flat coordinate-value list with unique ascending
coordinates matching an unbatched ordered-COO scheme, pack followed by
unpack (with the matching static result shape) returns exactly the
input values and coordinates, and the returned count equals the input
count. -/
theorem c7_pack_unpack_roundtrip (coords : List (List Nat)) (vals : List Nat)
    (rank : Nat) (hlen : coords.length = vals.length)
    (hrow : ∀ row ∈ coords, row.length = rank)
    (_hsorted : List.Chain' (fun a b => List.Lex (· < ·) a b) coords) :
    unpackCOO (packCOO coords vals) vals.length vals.length rank =
      (vals, coords, vals.length) := by
  rw [unpackCOO, packCOO]
  have hfit1 : fitLen vals.length vals = vals := by
    rw [fitLen, if_neg (Nat.lt_irrefl _), List.take_length]
  have hflat : coords.flatten.length = vals.length * rank := by
    rw [flatten_length_of_rows coords rank hrow, hlen]
  have hfit2 : fitLen (vals.length * rank) coords.flatten = coords.flatten := by
    rw [fitLen, hflat, if_neg (Nat.lt_irrefl _), ← hflat, List.take_length]
  simp only [hfit1, hfit2]
  rw [← hlen, unflattenRows_flatten coords rank hrow, hlen]

/-- Witness for C7 at a concrete input. -/
theorem c7_pack_unpack_roundtrip_witness :
    unpackCOO (packCOO [[0, 1], [1, 2]] [10, 20]) 2 2 2 =
      ([10, 20], [[0, 1], [1, 2]], 2) :=
  c7_pack_unpack_roundtrip [[0, 1], [1, 2]] [10, 20] 2 rfl (by decide)
    (by
      refine List.chain'_cons.mpr ⟨List.Lex.rel ?_, List.chain'_singleton _⟩
      norm_num)

/-! ### C8: convert between encodings -/

/-- A sparse tensor encoding as far as `SparseConvertConverter` is
concerned: level types (standing for everything `withoutBitWidths`
keeps), position/coordinate bit widths, and whether the encoding is a
slice. -/
structure Enc where
  lvlTypes : List DLT
  posWidth : Nat
  crdWidth : Nat
  slice : Bool
deriving DecidableEq, Repr

/-- `genCast` between integer types of different widths: truncation to
the destination width. -/
def castTo (w : Nat) (x : Nat) : Nat := x % 2 ^ w

/-- Per-buffer behaviour of the convert loop: element types differ →
element-wise cast loop; identical → wholesale copy (same contents). -/
def convertBuffer (wSrc wDst : Nat) (buf : List Nat) : List Nat :=
  if wDst ≠ wSrc then buf.map (castTo wDst) else buf

/-- Result of the convert rewrite: either the source tensor value is
reused unchanged (the trivial fold `replaceOp(op, adaptor.getSource())`)
or a fresh set of buffers is allocated and filled (the specifier is
reused as an SSA value either way). -/
inductive ConvertResult where
  | reuseSource : ConvertResult
  | freshBuffers (pos crd : List (List Nat)) (vals : List Nat) : ConvertResult
deriving DecidableEq, Repr

/-- `SparseConvertConverter::matchAndRewrite`: refuse when the encodings
differ beyond bit widths or the source is a slice; fold to the source
when nothing differs at all; otherwise allocate fresh buffers that are
copied or element-wise cast per field. -/
def convert (encSrc encDst : Enc) (elemWSrc elemWDst : Nat) (s : Storage) :
    Option ConvertResult :=
  if encDst.lvlTypes ≠ encSrc.lvlTypes ∨ encSrc.slice = true then none
  else if elemWDst = elemWSrc ∧ encDst = encSrc then some ConvertResult.reuseSource
  else
    some (ConvertResult.freshBuffers
      (s.pos.map (convertBuffer encSrc.posWidth encDst.posWidth))
      (s.crd.map (convertBuffer encSrc.crdWidth encDst.crdWidth))
      (convertBuffer elemWSrc elemWDst s.vals))

def encEx : Enc := ⟨[DLT.compressed true true], 32, 32, false⟩

/-- C8 counterexample: source and target encoding-identical (equal up to
index/element width — here fully equal), yet convert does not produce a
new storage instance with copied buffers: it folds to reusing the
source tensor value itself. -/
theorem c8_counterexample :
    convert encEx encEx 32 32 ⟨[[0, 1]], [[1]], [5]⟩ =
      some ConvertResult.reuseSource := by
  decide

/-- C8 (amended): convert refuses when the level-type structure differs
or the source is a slice; when the structure matches and something
differs in a width, it produces fresh buffers whose contents equal the
source buffers wholesale for identically-typed fields and the
element-wise cast of the source for differently-typed fields; when
nothing differs at all it reuses the source instance. -/
theorem c8_convert_amended (encSrc encDst : Enc) (eS eD : Nat) (s : Storage) :
    (encDst.lvlTypes ≠ encSrc.lvlTypes ∨ encSrc.slice = true →
      convert encSrc encDst eS eD s = none) ∧
    (encDst.lvlTypes = encSrc.lvlTypes → encSrc.slice = false →
      eD = eS ∧ encDst = encSrc →
      convert encSrc encDst eS eD s = some ConvertResult.reuseSource) ∧
    (encDst.lvlTypes = encSrc.lvlTypes → encSrc.slice = false →
      ¬(eD = eS ∧ encDst = encSrc) →
      convert encSrc encDst eS eD s = some (ConvertResult.freshBuffers
        (if encDst.posWidth = encSrc.posWidth then s.pos
         else s.pos.map (List.map (castTo encDst.posWidth)))
        (if encDst.crdWidth = encSrc.crdWidth then s.crd
         else s.crd.map (List.map (castTo encDst.crdWidth)))
        (if eD = eS then s.vals else s.vals.map (castTo eD)))) := by
  refine ⟨fun h => ?_, fun h1 h2 h3 => ?_, fun h1 h2 h3 => ?_⟩
  · rw [convert, if_pos h]
  · rw [convert, if_neg (by
      intro hcon
      rcases hcon with hne | hsl
      · exact hne h1
      · rw [h2] at hsl; exact Bool.false_ne_true hsl), if_pos h3]
  · rw [convert, if_neg (by
      intro hcon
      rcases hcon with hne | hsl
      · exact hne h1
      · rw [h2] at hsl; exact Bool.false_ne_true hsl), if_neg h3]
    have hbuf : ∀ (wS wD : Nat) (bufs : List (List Nat)),
        bufs.map (convertBuffer wS wD) =
          if wD = wS then bufs else bufs.map (List.map (castTo wD)) := by
      intro wS wD bufs
      by_cases hw : wD = wS
      · rw [if_pos hw]
        have : convertBuffer wS wD = id := by
          funext b
          rw [convertBuffer, if_neg (by simpa using hw)]
          rfl
        rw [this, List.map_id]
      · rw [if_neg hw]
        have : convertBuffer wS wD = List.map (castTo wD) := by
          funext b
          rw [convertBuffer, if_pos hw]
        rw [this]
    rw [hbuf, hbuf]
    have hval : convertBuffer eS eD s.vals =
        if eD = eS then s.vals else s.vals.map (castTo eD) := by
      by_cases he : eD = eS
      · rw [if_pos he, convertBuffer, if_neg (by simpa using he)]
      · rw [if_neg he, convertBuffer, if_pos he]
    rw [hval]

/-- Witness for C8 (amended), fresh-buffers case: same structure, wider
destination position width. -/
theorem c8_convert_amended_witness :
    convert encEx ⟨[DLT.compressed true true], 64, 32, false⟩ 32 32
        ⟨[[0, 1]], [[1]], [5]⟩ =
      some (ConvertResult.freshBuffers
        (if (64 : Nat) = 32 then [[0, 1]]
         else [[0, 1]].map (List.map (castTo 64)))
        (if (32 : Nat) = 32 then [[1]]
         else [[1]].map (List.map (castTo 32)))
        (if (32 : Nat) = 32 then [5] else [5].map (castTo 32))) :=
  (c8_convert_amended encEx ⟨[DLT.compressed true true], 64, 32, false⟩ 32 32
    ⟨[[0, 1]], [[1]], [5]⟩).2.2 rfl rfl (by decide)

/-! ### C6: expand → accumulate → compress equals sorted insertion -/

theorem getD_set_self_of_lt {α : Type _} (l : List α) (i : Nat) (a d : α)
    (h : i < l.length) : (l.set i a).getD i d = a := by
  simp [List.getD_eq_getElem?_getD, List.getElem?_set_self', h]

theorem getD_set_of_ne {α : Type _} (l : List α) (i j : Nat) (a d : α)
    (h : i ≠ j) : (l.set i a).getD j d = l.getD j d := by
  simp [List.getD_eq_getElem?_getD, List.getElem?_set_ne h]

theorem getD_replicate_self {α : Type _} (n i : Nat) (d : α) :
    (List.replicate n d).getD i d = d := by
  rcases Nat.lt_or_ge i n with h | h
  · simp [List.getD_eq_getElem?_getD, List.getElem?_replicate, h]
  · have hlen : (List.replicate n d).length ≤ i := by simpa using h
    simp [List.getD_eq_getElem?_getD, List.getElem?_eq_none hlen]

/-- `SparseExpandConverter`: a zero-filled value scratch buffer, a
false-filled "is filled" switch and an empty touched-coordinate list,
all sized to the innermost level extent (the initial count is zero,
i.e. the touched list is empty). -/
def expand (innerSize : Nat) : List Nat × List Bool × List Nat :=
  (List.replicate innerSize 0, List.replicate innerSize false, [])

/-- Modelled from the spec (§4.4): the caller-side dense accumulation
step of the expand/compress protocol, which the engine does not
implement itself.  For each incoming pair, an unfilled coordinate is
marked filled, recorded in the touched list and given its value; the
caller-defined reduction for an already-filled coordinate is modelled
as overwriting (the claim only concerns duplicate-free rows, where
that branch is never reached). -/
def accumulate : List (Nat × Nat) → List Nat × List Bool × List Nat →
    List Nat × List Bool × List Nat
  | [], st => st
  | (c, v) :: rest, (vsc, fl, tch) =>
    if fl.getD c false then accumulate rest (vsc.set c v, fl, tch)
    else accumulate rest (vsc.set c v, fl.set c true, tch ++ [c])

/-- The insertion loop of `SparseCompressConverter`: for each touched
coordinate, insert the full coordinate tuple with the accumulated value,
then reset the scratch value slot to zero and the filled switch to
false. -/
def compressLoop (sch : List Lvl) (lvlCoords : List Nat) :
    List Nat → Storage → List Nat → List Bool → Storage
  | [], s, _, _ => s
  | c :: rest, s, vsc, fl =>
    compressLoop sch lvlCoords rest
      (insert sch s (lvlCoords ++ [c]) (vsc.getD c 0)) (vsc.set c 0)
      (fl.set c false)

/-- `SparseCompressConverter`: sort the touched list first when the
innermost level is ordered, then run the insertion loop. -/
def compress (sch : List Lvl) (lvlCoords : List Nat) (s : Storage)
    (vsc : List Nat) (fl : List Bool) (added : List Nat) : Storage :=
  compressLoop sch lvlCoords
    (if (lvlAt sch (sch.length - 1)).dlt.isOrdered = true
     then added.mergeSort (fun a b => decide (a ≤ b)) else added) s vsc fl

/-- The same pairs ordered by coordinate (the order in which a caller
performs the one-at-a-time inserts on the left-hand side). -/
def sortPairs (pairs : List (Nat × Nat)) : List (Nat × Nat) :=
  pairs.mergeSort (fun p q => decide (p.1 ≤ q.1))

theorem accumulate_untouched :
    ∀ (pairs : List (Nat × Nat)) (vsc : List Nat) (fl : List Bool)
      (tch : List Nat) (c : Nat), c ∉ pairs.map Prod.fst →
      ((accumulate pairs (vsc, fl, tch)).1).getD c 0 = vsc.getD c 0 := by
  intro pairs
  induction pairs with
  | nil => intro vsc fl tch c _; rfl
  | cons p rest ih =>
    intro vsc fl tch c hc
    obtain ⟨c', v'⟩ := p
    simp only [List.map_cons, List.mem_cons, not_or] at hc
    rw [accumulate]
    split
    · rw [ih _ _ _ c hc.2, getD_set_of_ne _ _ _ _ _ (fun he => hc.1 he.symm)]
    · rw [ih _ _ _ c hc.2, getD_set_of_ne _ _ _ _ _ (fun he => hc.1 he.symm)]

theorem accumulate_spec :
    ∀ (pairs : List (Nat × Nat)) (vsc : List Nat) (fl : List Bool)
      (tch : List Nat),
      (pairs.map Prod.fst).Nodup →
      (∀ p ∈ pairs, fl.getD p.1 false = false) →
      (∀ p ∈ pairs, p.1 < vsc.length) →
      (accumulate pairs (vsc, fl, tch)).2.2 = tch ++ pairs.map Prod.fst ∧
      (∀ c v, (c, v) ∈ pairs →
        ((accumulate pairs (vsc, fl, tch)).1).getD c 0 = v) := by
  intro pairs
  induction pairs with
  | nil =>
    intro vsc fl tch _ _ _
    exact ⟨by simp [accumulate], fun c v h => absurd h (by simp)⟩
  | cons p rest ih =>
    intro vsc fl tch hnd hfl hbound
    obtain ⟨c, v⟩ := p
    simp only [List.map_cons, List.nodup_cons] at hnd
    rw [accumulate]
    rw [hfl (c, v) (by simp)]
    simp only [Bool.false_eq_true, if_false]
    have hfl' : ∀ q ∈ rest, (fl.set c true).getD q.1 false = false := by
      intro q hq
      rw [getD_set_of_ne _ _ _ _ _
        (fun he => hnd.1 (by rw [he]; exact List.mem_map_of_mem Prod.fst hq))]
      exact hfl q (by simp [hq])
    have hbound' : ∀ q ∈ rest, q.1 < (vsc.set c v).length := by
      intro q hq
      rw [List.length_set]
      exact hbound q (by simp [hq])
    obtain ⟨htch, hval⟩ := ih (vsc.set c v) (fl.set c true) (tch ++ [c])
      hnd.2 hfl' hbound'
    constructor
    · rw [htch]
      simp
    · intro c' v' hmem
      rcases List.mem_cons.mp hmem with he | hm
      · have he1 : c' = c := congrArg Prod.fst he
        have he2 : v' = v := congrArg Prod.snd he
        rw [he1, he2]
        rw [accumulate_untouched rest _ _ _ c (fun hc => hnd.1 hc)]
        exact getD_set_self_of_lt _ _ _ _ (hbound (c, v) (by simp))
      · exact hval c' v' hm

theorem compressLoop_eq_insertAll (sch : List Lvl) (lvlCoords : List Nat) :
    ∀ (S : List (Nat × Nat)) (s : Storage) (vsc : List Nat) (fl : List Bool),
      (S.map Prod.fst).Nodup →
      (∀ p ∈ S, vsc.getD p.1 0 = p.2) →
      compressLoop sch lvlCoords (S.map Prod.fst) s vsc fl =
        insertAll sch s (S.map (fun p => (lvlCoords ++ [p.1], p.2))) := by
  intro S
  induction S with
  | nil => intro s vsc fl _ _; rfl
  | cons p rest ih =>
    intro s vsc fl hnd hv
    obtain ⟨c, v⟩ := p
    simp only [List.map_cons, List.nodup_cons] at hnd
    rw [List.map_cons, compressLoop, hv (c, v) (by simp)]
    rw [List.map_cons]
    show _ = insertAll sch (insert sch s (lvlCoords ++ [c]) v) _
    rw [← ih (insert sch s (lvlCoords ++ [c]) v) (vsc.set c 0) (fl.set c false)
      hnd.2 (fun q hq => by
        rw [getD_set_of_ne _ _ _ _ _
          (fun he => hnd.1 (by rw [he]; exact List.mem_map_of_mem Prod.fst hq))]
        exact hv q (by simp [hq]))]

theorem mergeSort_fst_comm (pairs : List (Nat × Nat)) :
    (pairs.map Prod.fst).mergeSort (fun a b => decide (a ≤ b)) =
      (sortPairs pairs).map Prod.fst := by
  rw [sortPairs]
  have hs1 : ((pairs.map Prod.fst).mergeSort (fun a b => decide (a ≤ b))).Sorted (· ≤ ·) := by
    have h := @List.sorted_mergeSort Nat (fun a b => decide (a ≤ b))
      (fun a b c hab hbc => by
        simp only [decide_eq_true_eq] at hab hbc ⊢
        exact Nat.le_trans hab hbc)
      (fun a b => by
        simp only [Bool.or_eq_true, decide_eq_true_eq]
        exact Nat.le_total a b)
      (pairs.map Prod.fst)
    exact h.imp (fun hab => by simpa using hab)
  have hs2 : ((pairs.mergeSort (fun p q => decide (p.1 ≤ q.1))).map Prod.fst).Sorted
      (· ≤ ·) := by
    rw [List.Sorted, List.pairwise_map]
    have h := @List.sorted_mergeSort (Nat × Nat) (fun p q => decide (p.1 ≤ q.1))
      (fun a b c hab hbc => by
        simp only [decide_eq_true_eq] at hab hbc ⊢
        exact Nat.le_trans hab hbc)
      (fun a b => by
        simp only [Bool.or_eq_true, decide_eq_true_eq]
        exact Nat.le_total a.1 b.1)
      pairs
    exact h.imp (fun hab => by simpa using hab)
  have hperm : ((pairs.map Prod.fst).mergeSort (fun a b => decide (a ≤ b))).Perm
      ((pairs.mergeSort (fun p q => decide (p.1 ≤ q.1))).map Prod.fst) := by
    refine (List.mergeSort_perm _ _).trans ?_
    exact (List.Perm.map Prod.fst (List.mergeSort_perm pairs _)).symm
  exact List.eq_of_perm_of_sorted hperm hs1 hs2

/-- C6: for a row of distinct coordinate-value pairs on a scheme whose
innermost level is ordered, processing them via expand → dense
accumulation → compress produces exactly the storage obtained by
inserting them one at a time, in coordinate-sorted order, via insert. -/
theorem c6_scatter_gather_equivalence (sch : List Lvl) (s : Storage)
    (lvlCoords : List Nat) (pairs : List (Nat × Nat)) (innerSize : Nat)
    (hord : (lvlAt sch (sch.length - 1)).dlt.isOrdered = true)
    (hnd : (pairs.map Prod.fst).Nodup)
    (hbound : ∀ p ∈ pairs, p.1 < innerSize) :
    compress sch lvlCoords s (accumulate pairs (expand innerSize)).1
        (accumulate pairs (expand innerSize)).2.1
        (accumulate pairs (expand innerSize)).2.2 =
      insertAll sch s ((sortPairs pairs).map (fun p => (lvlCoords ++ [p.1], p.2))) := by
  have hexp : expand innerSize =
      (List.replicate innerSize 0, List.replicate innerSize false,
        ([] : List Nat)) := rfl
  rw [hexp]
  obtain ⟨htch, hval⟩ := accumulate_spec pairs (List.replicate innerSize 0)
    (List.replicate innerSize false) [] hnd
    (fun p _ => getD_replicate_self _ _ _)
    (fun p hp => by rw [List.length_replicate]; exact hbound p hp)
  rw [compress, if_pos hord]
  rw [htch, List.nil_append, mergeSort_fst_comm]
  refine compressLoop_eq_insertAll sch lvlCoords (sortPairs pairs) s _ _ ?_ ?_
  · exact (((List.mergeSort_perm pairs
      (fun p q => decide (p.1 ≤ q.1))).map Prod.fst).nodup_iff).mpr hnd
  · intro p hp
    obtain ⟨c, v⟩ := p
    exact hval c v ((List.mergeSort_perm pairs
      (fun p q => decide (p.1 ≤ q.1))).mem_iff.mp hp)

/-- Witness for C6 at a concrete input: two pairs arriving out of order
on the CSR-style scheme. -/
theorem c6_scatter_gather_equivalence_witness :
    compress schemeDC [0] (createAllocFields schemeDC)
        (accumulate [(2, 9), (0, 7)] (expand 3)).1
        (accumulate [(2, 9), (0, 7)] (expand 3)).2.1
        (accumulate [(2, 9), (0, 7)] (expand 3)).2.2 =
      insertAll schemeDC (createAllocFields schemeDC)
        ((sortPairs [(2, 9), (0, 7)]).map (fun p => ([0] ++ [p.1], p.2))) :=
  c6_scatter_gather_equivalence schemeDC (createAllocFields schemeDC) [0]
    [(2, 9), (0, 7)] 3 (by decide) (by decide) (by decide)

/-! ### C5 machinery, part 1: list and posClean lemmas -/

/-- Pointwise non-decreasing predicate on the occupied slots. -/
def NonDecr (L : List Nat) : Prop :=
  ∀ i, i + 1 < L.length → L.getD i 0 ≤ L.getD (i + 1) 0

theorem getD_append_left' (l1 l2 : List Nat) (i : Nat) (h : i < l1.length) (d : Nat) :
    (l1 ++ l2).getD i d = l1.getD i d := by
  simp [List.getD_eq_getElem?_getD, List.getElem?_append_left h]

theorem getD_append_last (xs : List Nat) (a : Nat) :
    (xs ++ [a]).getD xs.length 0 = a := by
  simp [List.getD_eq_getElem?_getD]

theorem take_set_of_le (xs : List Nat) (i k : Nat) (a : Nat) (h : k ≤ i) :
    (xs.set i a).take k = xs.take k := by
  apply List.ext_getElem?
  intro j
  rw [List.getElem?_take, List.getElem?_take]
  by_cases hj : j < k
  · rw [if_pos hj, if_pos hj, List.getElem?_set_ne (by omega)]
  · rw [if_neg hj, if_neg hj]

theorem take_set_of_lt (xs : List Nat) (i k : Nat) (a : Nat) (h : i < k) :
    (xs.set i a).take k = (xs.take k).set i a := by
  apply List.ext_getElem?
  intro j
  by_cases hij : i = j
  · subst hij
    by_cases hin : i < xs.length
    · simp [List.getElem?_take, List.getElem?_set_self', h]
    · rw [List.set_eq_of_length_le (by omega),
        List.set_eq_of_length_le (by rw [List.length_take]; omega)]
  · simp [List.getElem?_take, List.getElem?_set_ne hij]

theorem getD_zero_of_all_zero (L : List Nat) (i : Nat) (h : ∀ x ∈ L, x = 0) :
    L.getD i 0 = 0 := by
  by_cases hi : i < L.length
  · rw [List.getD_eq_getElem?_getD, List.getElem?_eq_getElem hi]
    exact h _ (List.getElem_mem hi)
  · rw [List.getD_eq_getElem?_getD, List.getElem?_eq_none (by omega)]
    rfl

theorem getBuf_ne_nil_lt (bufs : List (List Nat)) (i : Nat)
    (h : getBuf bufs i ≠ []) : i < bufs.length := by
  by_contra hc
  refine h ?_
  rw [getBuf, List.getD_eq_getElem?_getD, List.getElem?_eq_none (by omega)]
  rfl

theorem posCleanLoop_take :
    ∀ (xs : List Nat) (oldv k : Nat),
      posCleanLoop oldv (xs.take k) = (posCleanLoop oldv xs).take k := by
  intro xs
  induction xs with
  | nil => intro o k; simp [posCleanLoop]
  | cons x rest ih =>
    intro o k
    cases k with
    | zero => simp [posCleanLoop]
    | succ k' => simp only [List.take_succ_cons, posCleanLoop, ih]

theorem posClean_take (xs : List Nat) (k : Nat) :
    posClean (xs.take k) = (posClean xs).take k := by
  cases xs with
  | nil => simp [posClean]
  | cons x rest =>
    cases k with
    | zero => simp [posClean]
    | succ k' => simp only [List.take_succ_cons, posClean, posCleanLoop_take]

/-- Zero entries propagate the cleaned value forward. -/
theorem posClean_carry (xs : List Nat) :
    ∀ (d : Nat) (i : Nat), i + d < xs.length →
      (∀ j, i < j → j ≤ i + d → xs.getD j 0 = 0) →
      (posClean xs).getD (i + d) 0 = (posClean xs).getD i 0 := by
  intro d
  induction d with
  | zero => intro i _ _; rfl
  | succ d' ih =>
    intro i hlen hz
    have step : (posClean xs).getD (i + d' + 1) 0 = (posClean xs).getD (i + d') 0 := by
      rw [posClean_getD_succ xs (i + d') (by omega)]
      rw [hz (i + d' + 1) (by omega) (by omega)]
      simp
    rw [show i + (d' + 1) = i + d' + 1 by omega, step]
    exact ih i (by omega) (fun j hj1 hj2 => hz j hj1 (by omega))

/-- A cleaned all-zero prefix stays zero. -/
theorem posClean_zero_prefix (xs : List Nat) :
    ∀ (i : Nat), i < xs.length → (∀ j, j ≤ i → xs.getD j 0 = 0) →
      (posClean xs).getD i 0 = 0 := by
  intro i
  induction i with
  | zero =>
    intro hlen hz
    rw [posClean_getD_zero]
    exact hz 0 (Nat.le_refl 0)
  | succ i' ih =>
    intro hlen hz
    rw [posClean_getD_succ xs i' hlen, hz (i' + 1) (Nat.le_refl _)]
    simp only [if_pos rfl]
    exact ih (by omega) (fun j hj => hz j (by omega))

/-! ### C5 machinery, part 2: ordered-insertion invariant -/

/-- Dense-coordinate validity of one tuple from level `l` on: every
dense level receives a coordinate below its size. -/
def DenseOk : List Lvl → Nat → List Nat → Prop
  | [], _, _ => True
  | lv :: rest, l, c =>
    (lv.dlt.isDense = true → c.getD l 0 < lv.size) ∧ DenseOk rest (l + 1) c

/-- Lexicographic level order between two tuples from level `l` on
(ties recurse; exhausting the levels means the tuples agree). -/
def lexLeFrom : List Lvl → Nat → List Nat → List Nat → Prop
  | [], _, _, _ => True
  | _ :: rest, l, a, b =>
    a.getD l 0 < b.getD l 0 ∨ (a.getD l 0 = b.getD l 0 ∧ lexLeFrom rest (l + 1) a b)

/-- Scheme validity: no compressed level follows a singleton level
(`allocSchemeForRank` stops at a singleton, so a compressed level below
one would never receive its position slots; such encodings are rejected
upstream). -/
def ValidSuffix : List Lvl → Prop
  | [] => True
  | lv :: rest =>
    (lv.dlt.isSingleton = true → ∀ m ∈ rest, m.dlt.isCompressed = false) ∧
    ValidSuffix rest

/-- The state invariant maintained by ordered insertion from level `l`
down, threading the parent-slot count `np`, the frontier parent
position `p` used by the most recent insert at this level, and the most
recently inserted tuple `t`.  At a compressed level: the position array
has `np + 1` occupied slots, the frontier's range ends at the
coordinate count and starts strictly below it, all slots beyond the
frontier still hold the zero sentinel, the cleaned prefix is
non-decreasing, and the last stored coordinate is the last tuple's. -/
def SInv : List Lvl → Nat → Nat → Nat → List Nat → Storage → Prop
  | [], _, _, _, _, _ => True
  | lv :: rest, l, np, p, t, s =>
    match lv.dlt with
    | .dense => SInv rest (l + 1) (np * lv.size) (lv.size * p + t.getD l 0) t s
    | .singleton _ _ => SInv rest (l + 1) (getBuf s.crd l).length p t s
    | .compressed _ _ =>
      (getBuf s.pos l).length = np + 1 ∧
      p + 1 < (getBuf s.pos l).length ∧
      0 < (getBuf s.crd l).length ∧
      (getBuf s.pos l).getD (p + 1) 0 = (getBuf s.crd l).length ∧
      (getBuf s.pos l).getD p 0 < (getBuf s.crd l).length ∧
      (∀ i, p + 2 ≤ i → i < (getBuf s.pos l).length →
        (getBuf s.pos l).getD i 0 = 0) ∧
      NonDecr (posClean ((getBuf s.pos l).take (p + 2))) ∧
      (getBuf s.crd l).getD ((getBuf s.crd l).length - 1) 0 = t.getD l 0 ∧
      SInv rest (l + 1) (getBuf s.crd l).length
        ((getBuf s.crd l).length - 1) t s

/-- The freshly-allocated state (no insert yet) from level `l` down:
compressed levels hold `np + 1` zero position slots and empty
coordinates; below the first non-dense level the parent count is 0. -/
def SInv0 : List Lvl → Nat → Nat → Storage → Prop
  | [], _, _, _ => True
  | lv :: rest, l, np, s =>
    match lv.dlt with
    | .dense => SInv0 rest (l + 1) (np * lv.size) s
    | .singleton _ _ => getBuf s.crd l = [] ∧ SInv0 rest (l + 1) 0 s
    | .compressed _ _ =>
      (getBuf s.pos l).length = np + 1 ∧
      (∀ x ∈ getBuf s.pos l, x = 0) ∧
      getBuf s.crd l = [] ∧
      l < s.crd.length ∧
      SInv0 rest (l + 1) 0 s

theorem SInv_congr :
    ∀ (rest : List Lvl) (l np p : Nat) (t : List Nat) (s s' : Storage),
      (∀ m, l ≤ m → getBuf s'.pos m = getBuf s.pos m) →
      (∀ m, l ≤ m → getBuf s'.crd m = getBuf s.crd m) →
      SInv rest l np p t s → SInv rest l np p t s' := by
  intro rest
  induction rest with
  | nil => intro l np p t s s' _ _ _; trivial
  | cons lv rest' ih =>
    intro l np p t s s' hpos hcrd hinv
    cases hd : lv.dlt with
    | dense =>
      simp only [SInv, hd] at hinv ⊢
      exact ih _ _ _ _ _ _ (fun m hm => hpos m (by omega))
        (fun m hm => hcrd m (by omega)) hinv
    | singleton o u =>
      simp only [SInv, hd] at hinv ⊢
      rw [hcrd l (Nat.le_refl l)]
      exact ih _ _ _ _ _ _ (fun m hm => hpos m (by omega))
        (fun m hm => hcrd m (by omega)) hinv
    | compressed o u =>
      simp only [SInv, hd] at hinv ⊢
      rw [hcrd l (Nat.le_refl l), hpos l (Nat.le_refl l)]
      exact ⟨hinv.1, hinv.2.1, hinv.2.2.1, hinv.2.2.2.1, hinv.2.2.2.2.1,
        hinv.2.2.2.2.2.1, hinv.2.2.2.2.2.2.1, hinv.2.2.2.2.2.2.2.1,
        ih _ _ _ _ _ _ (fun m hm => hpos m (by omega))
          (fun m hm => hcrd m (by omega)) hinv.2.2.2.2.2.2.2.2⟩

theorem SInv0_congr :
    ∀ (rest : List Lvl) (l np : Nat) (s s' : Storage),
      (∀ m, l ≤ m → getBuf s'.pos m = getBuf s.pos m) →
      (∀ m, l ≤ m → getBuf s'.crd m = getBuf s.crd m) →
      s'.crd.length = s.crd.length →
      SInv0 rest l np s → SInv0 rest l np s' := by
  intro rest
  induction rest with
  | nil => intro l np s s' _ _ _ _; trivial
  | cons lv rest' ih =>
    intro l np s s' hpos hcrd hclen hinv
    cases hd : lv.dlt with
    | dense =>
      simp only [SInv0, hd] at hinv ⊢
      exact ih _ _ _ _ (fun m hm => hpos m (by omega))
        (fun m hm => hcrd m (by omega)) hclen hinv
    | singleton o u =>
      simp only [SInv0, hd] at hinv ⊢
      rw [hcrd l (Nat.le_refl l)]
      exact ⟨hinv.1, ih _ _ _ _ (fun m hm => hpos m (by omega))
        (fun m hm => hcrd m (by omega)) hclen hinv.2⟩
    | compressed o u =>
      simp only [SInv0, hd] at hinv ⊢
      rw [hcrd l (Nat.le_refl l), hpos l (Nat.le_refl l), hclen]
      exact ⟨hinv.1, hinv.2.1, hinv.2.2.1, hinv.2.2.2.1,
        ih _ _ _ _ (fun m hm => hpos m (by omega))
          (fun m hm => hcrd m (by omega)) hclen hinv.2.2.2.2⟩

/-- A level suffix containing no compressed level carries no invariant
content. -/
theorem SInv_no_compressed :
    ∀ (rest : List Lvl) (l np p : Nat) (t : List Nat) (s : Storage),
      (∀ m ∈ rest, m.dlt.isCompressed = false) → SInv rest l np p t s := by
  intro rest
  induction rest with
  | nil => intro l np p t s _; trivial
  | cons lv rest' ih =>
    intro l np p t s h
    cases hd : lv.dlt with
    | dense =>
      simp only [SInv, hd]
      exact ih _ _ _ _ _ (fun m hm => h m (by simp [hm]))
    | singleton o u =>
      simp only [SInv, hd]
      exact ih _ _ _ _ _ (fun m hm => h m (by simp [hm]))
    | compressed o u =>
      have := h lv (by simp)
      rw [hd] at this
      simp [DLT.isCompressed] at this

/-! Untouched-level lemmas: operations started at level `l` only modify
buffers at levels `≥ l` (and position buffers only at `≥ l`). -/

theorem allocSchemeLoop_pos_lt :
    ∀ (rest : List Lvl) (l linear : Nat) (s : Storage) (m : Nat), m < l →
      getBuf (allocSchemeLoop s rest l linear).pos m = getBuf s.pos m := by
  intro rest
  induction rest with
  | nil => intro l linear s m _; rfl
  | cons lv rest' ih =>
    intro l linear s m hm
    cases hd : lv.dlt with
    | dense =>
      simp only [allocSchemeLoop, hd]
      exact ih (l + 1) _ s m (by omega)
    | compressed o u =>
      simp only [allocSchemeLoop, hd, Storage.setPosBuf]
      exact getBuf_set_ne _ _ _ _ (by omega)
    | singleton o u => simp only [allocSchemeLoop, hd]

theorem genCompressed_pos_lt (sch : List Lvl) (coords : List Nat) (s : Storage)
    (p lvl m : Nat) (hm : m < lvl) :
    getBuf ((genCompressed sch coords s p lvl).1).pos m = getBuf s.pos m := by
  have hs1 : ∀ (b : List Nat) (s' : Storage), getBuf s'.pos m = getBuf s.pos m →
      getBuf (s'.setPosBuf lvl b).pos m = getBuf s.pos m := by
    intro b s' h
    rw [setPosBuf_pos, getBuf_set_ne _ _ _ _ (by omega), h]
  simp only [genCompressed]
  split
  · dsimp only
    split
    · rfl
    · split
      · exact hs1 _ _ rfl
      · rfl
  · dsimp only
    split
    · rw [allocSchemeForRank, allocSchemeLoop_pos_lt _ _ _ _ _ (by omega)]
      simp only [setCrdBuf_pos]
      refine hs1 _ _ ?_
      split
      · rfl
      · split
        · exact hs1 _ _ rfl
        · rfl
    · simp only [setCrdBuf_pos]
      refine hs1 _ _ ?_
      split
      · rfl
      · split
        · exact hs1 _ _ rfl
        · rfl

theorem genCompressed_crd_ne (sch : List Lvl) (coords : List Nat) (s : Storage)
    (p lvl m : Nat) (hm : m ≠ lvl) :
    getBuf ((genCompressed sch coords s p lvl).1).crd m = getBuf s.crd m := by
  simp only [genCompressed]
  split
  · dsimp only
    simp only [apply_ite Storage.crd, setPosBuf_crd, ite_self]
  · dsimp only
    have hcore : ∀ (s' : Storage), s'.crd = s.crd →
        getBuf ((s'.setCrdBuf lvl (getBuf s'.crd lvl ++ [coords.getD lvl 0]))).crd m =
          getBuf s.crd m := by
      intro s' h
      rw [setCrdBuf_crd, h, getBuf_set_ne _ _ _ _ (fun he => hm he.symm)]
    split
    · rw [allocSchemeForRank, allocSchemeLoop_crd]
      refine hcore _ ?_
      simp only [apply_ite Storage.crd, setPosBuf_crd, ite_self]
    · refine hcore _ ?_
      simp only [apply_ite Storage.crd, setPosBuf_crd, ite_self]

theorem insertLoop_pos_lt (sch : List Lvl) (coords : List Nat) :
    ∀ (rest : List Lvl) (l : Nat) (s : Storage) (p m : Nat), m < l →
      getBuf ((insertLoop sch coords rest l s p).1).pos m = getBuf s.pos m := by
  intro rest
  induction rest with
  | nil => intro l s p m _; rfl
  | cons lv rest' ih =>
    intro l s p m hm
    cases hd : lv.dlt with
    | dense =>
      simp only [insertLoop, hd]
      exact ih (l + 1) s _ m (by omega)
    | singleton o u =>
      simp only [insertLoop, hd]
      rw [ih (l + 1) _ p m (by omega)]
      rfl
    | compressed o u =>
      simp only [insertLoop, hd]
      rw [ih (l + 1) _ _ m (by omega)]
      exact genCompressed_pos_lt sch coords s p l m hm

theorem insertLoop_crd_lt (sch : List Lvl) (coords : List Nat) :
    ∀ (rest : List Lvl) (l : Nat) (s : Storage) (p m : Nat), m < l →
      getBuf ((insertLoop sch coords rest l s p).1).crd m = getBuf s.crd m := by
  intro rest
  induction rest with
  | nil => intro l s p m _; rfl
  | cons lv rest' ih =>
    intro l s p m hm
    cases hd : lv.dlt with
    | dense =>
      simp only [insertLoop, hd]
      exact ih (l + 1) s _ m (by omega)
    | singleton o u =>
      simp only [insertLoop, hd]
      rw [ih (l + 1) _ p m (by omega), setCrdBuf_crd,
        getBuf_set_ne _ _ _ _ (by omega)]
    | compressed o u =>
      simp only [insertLoop, hd]
      rw [ih (l + 1) _ _ m (by omega)]
      exact genCompressed_crd_ne sch coords s p l m (by omega)

/-! ### C5 machinery, part 3: scheme propagation extends the invariant -/

theorem getD_append_zero_right (xs : List Nat) (n i : Nat) (h : xs.length ≤ i) :
    (xs ++ List.replicate n 0).getD i 0 = 0 := by
  by_cases h2 : i < xs.length + n
  · rw [List.getD_eq_getElem?_getD, List.getElem?_append_right h,
      List.getElem?_replicate, if_pos (by omega)]
    rfl
  · rw [List.getD_eq_getElem?_getD, List.getElem?_eq_none (by simp; omega)]
    rfl

/-- Appending `linear` zero position slots to every compressed level of
a suffix (what `allocSchemeForRank` does after a parent append) bumps
its parent-slot count by `linear` and preserves the insertion
invariant. -/
theorem SInv_allocExt :
    ∀ (rest : List Lvl) (l np linear p : Nat) (t : List Nat) (s : Storage),
      SInv rest l np p t s →
      SInv rest l (np + linear) p t (allocSchemeLoop s rest l linear) := by
  intro rest
  induction rest with
  | nil => intro l np linear p t s _; trivial
  | cons lv rest' ih =>
    intro l np linear p t s hinv
    cases hd : lv.dlt with
    | dense =>
      simp only [SInv, hd] at hinv ⊢
      simp only [allocSchemeLoop, hd]
      rw [Nat.add_mul]
      exact ih (l + 1) (np * lv.size) (linear * lv.size) _ t s hinv
    | singleton o u =>
      simp only [SInv, hd] at hinv ⊢
      simp only [allocSchemeLoop, hd]
      exact hinv
    | compressed o u =>
      simp only [SInv, hd] at hinv ⊢
      simp only [allocSchemeLoop, hd]
      obtain ⟨a1, a2, a3, a4, a5, a6, a7, a8, acont⟩ := hinv
      have hlt : l < s.pos.length := by
        refine getBuf_ne_nil_lt _ _ ?_
        intro hnil
        rw [hnil] at a1
        simp at a1
      have hgr : getBuf (s.setPosBuf l (getBuf s.pos l ++ List.replicate linear 0)).pos l =
          getBuf s.pos l ++ List.replicate linear 0 := by
        rw [setPosBuf_pos]
        exact getBuf_set_self _ _ _ hlt
      rw [hgr]
      simp only [setPosBuf_crd]
      refine ⟨by rw [List.length_append, List.length_replicate, a1]; omega,
        by rw [List.length_append]; omega, a3, ?_, ?_, ?_, ?_, a8, ?_⟩
      · rw [getD_append_left' _ _ _ (by omega), a4]
      · rw [getD_append_left' _ _ _ (by omega)]
        exact a5
      · intro i hi1 hi2
        by_cases hin : i < (getBuf s.pos l).length
        · rw [getD_append_left' _ _ _ hin]
          exact a6 i hi1 hin
        · exact getD_append_zero_right _ _ _ (by omega)
      · rw [List.take_append_of_le_length (by omega)]
        exact a7
      · refine SInv_congr rest' (l + 1) _ _ t s _ ?_ ?_ acont
        · intro m hm
          rw [setPosBuf_pos]
          exact getBuf_set_ne _ _ _ _ (by omega)
        · intro m _
          rfl

theorem SInv0_allocExt :
    ∀ (rest : List Lvl) (l np linear : Nat) (s : Storage),
      SInv0 rest l np s →
      SInv0 rest l (np + linear) (allocSchemeLoop s rest l linear) := by
  intro rest
  induction rest with
  | nil => intro l np linear s _; trivial
  | cons lv rest' ih =>
    intro l np linear s hinv
    cases hd : lv.dlt with
    | dense =>
      simp only [SInv0, hd] at hinv ⊢
      simp only [allocSchemeLoop, hd]
      rw [Nat.add_mul]
      exact ih (l + 1) (np * lv.size) (linear * lv.size) s hinv
    | singleton o u =>
      simp only [SInv0, hd] at hinv ⊢
      simp only [allocSchemeLoop, hd]
      exact hinv
    | compressed o u =>
      simp only [SInv0, hd] at hinv ⊢
      simp only [allocSchemeLoop, hd]
      obtain ⟨a1, a2, a3, a4, acont⟩ := hinv
      have hlt : l < s.pos.length := by
        refine getBuf_ne_nil_lt _ _ ?_
        intro hnil
        rw [hnil] at a1
        simp at a1
      have hgr : getBuf (s.setPosBuf l (getBuf s.pos l ++ List.replicate linear 0)).pos l =
          getBuf s.pos l ++ List.replicate linear 0 := by
        rw [setPosBuf_pos]
        exact getBuf_set_self _ _ _ hlt
      rw [hgr]
      simp only [setPosBuf_crd]
      refine ⟨by rw [List.length_append, List.length_replicate, a1]; omega, ?_, a3, a4, ?_⟩
      · intro x hx
        rcases List.mem_append.mp hx with hx1 | hx2
        · exact a2 x hx1
        · exact List.eq_of_mem_replicate hx2
      · refine SInv0_congr rest' (l + 1) _ s _ ?_ ?_ rfl acont
        · intro m hm
          rw [setPosBuf_pos]
          exact getBuf_set_ne _ _ _ _ (by omega)
        · intro m _
          rfl

/-- Levels whose position buffer still holds the single leading zero
and whose coordinates are empty satisfy the fresh-state invariant with
parent count 0. -/
theorem SInv0_untouched :
    ∀ (rest : List Lvl) (l : Nat) (s : Storage),
      (∀ k, k < rest.length →
        getBuf s.pos (l + k) =
          (if (rest.getD k default).dlt.isCompressed = true then [0] else [])) →
      (∀ k, k < rest.length → getBuf s.crd (l + k) = []) →
      l + rest.length ≤ s.crd.length →
      SInv0 rest l 0 s := by
  intro rest
  induction rest with
  | nil => intro l s _ _ _; trivial
  | cons lv rest' ih =>
    intro l s hpos hcrd hclen
    have hshiftp : ∀ k, k < rest'.length →
        getBuf s.pos (l + 1 + k) =
          (if (rest'.getD k default).dlt.isCompressed = true then [0] else []) := by
      intro k hk
      have := hpos (k + 1) (by simp; omega)
      rwa [show l + (k + 1) = l + 1 + k by omega, List.getD_cons_succ] at this
    have hshiftc : ∀ k, k < rest'.length → getBuf s.crd (l + 1 + k) = [] := by
      intro k hk
      have := hcrd (k + 1) (by simp; omega)
      rwa [show l + (k + 1) = l + 1 + k by omega] at this
    have hp0 := hpos 0 (by simp)
    have hc0 := hcrd 0 (by simp)
    rw [Nat.add_zero] at hp0 hc0
    rw [List.getD_cons_zero] at hp0
    cases hd : lv.dlt with
    | dense =>
      simp only [SInv0, hd]
      rw [show 0 * lv.size = 0 by omega]
      exact ih (l + 1) s hshiftp hshiftc (by simp at hclen; omega)
    | singleton o u =>
      simp only [SInv0, hd]
      exact ⟨hc0, ih (l + 1) s hshiftp hshiftc (by simp at hclen; omega)⟩
    | compressed o u =>
      simp only [SInv0, hd]
      rw [hd] at hp0
      simp only [DLT.isCompressed, if_pos] at hp0
      rw [hp0]
      refine ⟨rfl, ?_, hc0, by simp at hclen; omega,
        ih (l + 1) s hshiftp hshiftc (by simp at hclen; omega)⟩
      intro x hx
      simpa using hx

/-- Running scheme propagation on a fresh field set establishes the
fresh-state invariant with parent count `linear`. -/
theorem SInv0_allocLoop :
    ∀ (rest : List Lvl) (l linear : Nat) (s : Storage),
      (∀ k, k < rest.length →
        getBuf s.pos (l + k) =
          (if (rest.getD k default).dlt.isCompressed = true then [0] else [])) →
      (∀ k, k < rest.length → getBuf s.crd (l + k) = []) →
      l + rest.length ≤ s.crd.length →
      SInv0 rest l linear (allocSchemeLoop s rest l linear) := by
  intro rest
  induction rest with
  | nil => intro l linear s _ _ _; trivial
  | cons lv rest' ih =>
    intro l linear s hpos hcrd hclen
    have hshiftp : ∀ k, k < rest'.length →
        getBuf s.pos (l + 1 + k) =
          (if (rest'.getD k default).dlt.isCompressed = true then [0] else []) := by
      intro k hk
      have := hpos (k + 1) (by simp; omega)
      rwa [show l + (k + 1) = l + 1 + k by omega, List.getD_cons_succ] at this
    have hshiftc : ∀ k, k < rest'.length → getBuf s.crd (l + 1 + k) = [] := by
      intro k hk
      have := hcrd (k + 1) (by simp; omega)
      rwa [show l + (k + 1) = l + 1 + k by omega] at this
    have hp0 := hpos 0 (by simp)
    have hc0 := hcrd 0 (by simp)
    rw [Nat.add_zero] at hp0 hc0
    rw [List.getD_cons_zero] at hp0
    cases hd : lv.dlt with
    | dense =>
      simp only [SInv0, hd]
      simp only [allocSchemeLoop, hd]
      exact ih (l + 1) (linear * lv.size) s hshiftp hshiftc (by simp at hclen; omega)
    | singleton o u =>
      simp only [SInv0, hd]
      simp only [allocSchemeLoop, hd]
      exact ⟨hc0, SInv0_untouched rest' (l + 1) s hshiftp hshiftc
        (by simp at hclen; omega)⟩
    | compressed o u =>
      rw [hd] at hp0
      simp only [DLT.isCompressed, if_pos] at hp0
      simp only [SInv0, hd]
      simp only [allocSchemeLoop, hd]
      have hlt : l < s.pos.length := by
        refine getBuf_ne_nil_lt _ _ ?_
        rw [hp0]
        simp
      have hgr : getBuf (s.setPosBuf l (getBuf s.pos l ++ List.replicate linear 0)).pos l =
          getBuf s.pos l ++ List.replicate linear 0 := by
        rw [setPosBuf_pos]
        exact getBuf_set_self _ _ _ hlt
      rw [hgr, hp0]
      simp only [setPosBuf_crd]
      refine ⟨by simp, ?_, hc0, by simp at hclen; omega, ?_⟩
      · intro x hx
        rcases List.mem_append.mp hx with hx1 | hx2
        · simpa using hx1
        · exact List.eq_of_mem_replicate hx2
      · refine SInv0_untouched rest' (l + 1) _ ?_ ?_ ?_
        · intro k hk
          rw [setPosBuf_pos, getBuf_set_ne _ _ _ _ (by omega)]
          exact hshiftp k hk
        · intro k hk
          exact hshiftc k hk
        · simp only [setPosBuf_crd]
          simp at hclen
          omega

theorem SInv0_createAllocFields (sch : List Lvl) :
    SInv0 sch 0 1 (createAllocFields sch) := by
  rw [createAllocFields, allocSchemeForRank, List.drop_zero]
  refine SInv0_allocLoop sch 0 1 _ ?_ ?_ (by simp)
  · intro k hk
    rw [Nat.zero_add, getBuf, List.getD_eq_getElem?_getD]
    show ((initPosFields sch)[k]?).getD [] = _
    rw [initPosFields, List.getElem?_map, List.getElem?_eq_getElem hk]
    have : sch.getD k default = sch[k] := by
      rw [List.getD_eq_getElem?_getD, List.getElem?_eq_getElem hk]
      rfl
    rw [this]
    cases hd : (sch[k]).dlt with
    | dense => simp [hd, DLT.isCompressed]
    | compressed o u => simp [hd, DLT.isCompressed]
    | singleton o u => simp [hd, DLT.isCompressed]
  · intro k hk
    rw [Nat.zero_add, getBuf, List.getD_eq_getElem?_getD]
    show ((sch.map (fun _ => ([] : List Nat)))[k]?).getD [] = _
    rw [List.getElem?_map, List.getElem?_eq_getElem hk]
    rfl

/-! ### C5 machinery, part 4: genCompressed branch characterizations -/

/-- The Boolean already-present condition evaluated by `genCompressed`:
unique level, non-empty range, and last range coordinate equal to the
inserted one. -/
def presentCond (sch : List Lvl) (coords : List Nat) (s : Storage)
    (p lvl : Nat) : Bool :=
  (lvlAt sch lvl).dlt.isUnique &&
    (decide ((getBuf s.pos lvl).getD p 0 < (getBuf s.pos lvl).getD (p + 1) 0) &&
      decide ((getBuf s.crd lvl).getD ((getBuf s.pos lvl).getD (p + 1) 0 - 1) 0 =
        coords.getD lvl 0))

/-- The position buffer after the not-present path at parent `p`: the
empty-range backfill of `positions[p] := msz` happens only when the
range was empty and `lvl > 0`; `positions[p+1] := msz + 1` always. -/
def posAfterAppend (posL : List Nat) (p msz lvl : Nat) : List Nat :=
  (if posL.getD p 0 < posL.getD (p + 1) 0 ∨ lvl = 0 then posL
   else posL.set p msz).set (p + 1) (msz + 1)

/-- The storage after the not-present path of `genCompressed`, before
the next-level preparation. -/
def stateAfterAppend (coords : List Nat) (s : Storage) (p lvl : Nat) : Storage :=
  (s.setPosBuf lvl
    (posAfterAppend (getBuf s.pos lvl) p (getBuf s.crd lvl).length lvl)).setCrdBuf
    lvl (getBuf s.crd lvl ++ [coords.getD lvl 0])

theorem genCompressed_present (sch : List Lvl) (coords : List Nat) (s : Storage)
    (p lvl : Nat) (hc : presentCond sch coords s p lvl = true) :
    genCompressed sch coords s p lvl =
      (s, (getBuf s.pos lvl).getD (p + 1) 0 - 1) := by
  have hlt : (getBuf s.pos lvl).getD p 0 < (getBuf s.pos lvl).getD (p + 1) 0 := by
    rw [presentCond, Bool.and_eq_true, Bool.and_eq_true, decide_eq_true_eq,
      decide_eq_true_eq] at hc
    exact hc.2.1
  rw [presentCond] at hc
  simp only [genCompressed, hc, if_true, if_pos hlt]

theorem setPosBuf_setPosBuf (s : Storage) (l : Nat) (b1 b2 : List Nat) :
    (s.setPosBuf l b1).setPosBuf l b2 = s.setPosBuf l b2 := by
  simp [Storage.setPosBuf, List.set_set]

theorem genCompressed_append (sch : List Lvl) (coords : List Nat) (s : Storage)
    (p lvl : Nat) (hplen : lvl < s.pos.length)
    (hc : presentCond sch coords s p lvl = false) :
    genCompressed sch coords s p lvl =
      (if lvl + 1 < sch.length
       then allocSchemeForRank sch (stateAfterAppend coords s p lvl) (lvl + 1)
       else stateAfterAppend coords s p lvl,
       (getBuf s.crd lvl).length) := by
  rw [presentCond] at hc
  simp only [genCompressed, hc, Bool.false_eq_true, if_false]
  by_cases hlt : (getBuf s.pos lvl).getD p 0 < (getBuf s.pos lvl).getD (p + 1) 0
  · rw [if_pos hlt, stateAfterAppend, posAfterAppend, if_pos (Or.inl hlt)]
    simp only [setPosBuf_crd]
  · rw [if_neg hlt]
    by_cases h0 : 0 < lvl
    · rw [if_pos h0]
      have hg : getBuf (s.setPosBuf lvl
            ((getBuf s.pos lvl).set p (getBuf s.crd lvl).length)).pos lvl =
          (getBuf s.pos lvl).set p (getBuf s.crd lvl).length := by
        rw [setPosBuf_pos]
        exact getBuf_set_self _ _ _ hplen
      have hpa : posAfterAppend (getBuf s.pos lvl) p (getBuf s.crd lvl).length lvl =
          ((getBuf s.pos lvl).set p (getBuf s.crd lvl).length).set (p + 1)
            ((getBuf s.crd lvl).length + 1) := by
        rw [posAfterAppend, if_neg]
        push_neg
        exact ⟨by omega, by omega⟩
      rw [hg, setPosBuf_setPosBuf, stateAfterAppend, hpa]
      simp only [setPosBuf_crd]
    · rw [if_neg h0, stateAfterAppend, posAfterAppend, if_pos (Or.inr (by omega))]
      simp only [setPosBuf_crd]

theorem posAfterAppend_length (posL : List Nat) (p msz lvl : Nat) :
    (posAfterAppend posL p msz lvl).length = posL.length := by
  rw [posAfterAppend]
  split <;> simp

theorem stateAfterAppend_pos_self (coords : List Nat) (s : Storage) (p lvl : Nat)
    (hplen : lvl < s.pos.length) :
    getBuf (stateAfterAppend coords s p lvl).pos lvl =
      posAfterAppend (getBuf s.pos lvl) p (getBuf s.crd lvl).length lvl := by
  rw [stateAfterAppend, setCrdBuf_pos, setPosBuf_pos]
  exact getBuf_set_self _ _ _ hplen

theorem stateAfterAppend_crd_self (coords : List Nat) (s : Storage) (p lvl : Nat)
    (hclen : lvl < s.crd.length) :
    getBuf (stateAfterAppend coords s p lvl).crd lvl =
      getBuf s.crd lvl ++ [coords.getD lvl 0] := by
  rw [stateAfterAppend, setCrdBuf_crd, setPosBuf_crd]
  exact getBuf_set_self _ _ _ hclen

theorem stateAfterAppend_pos_ne (coords : List Nat) (s : Storage) (p lvl m : Nat)
    (hm : m ≠ lvl) :
    getBuf (stateAfterAppend coords s p lvl).pos m = getBuf s.pos m := by
  rw [stateAfterAppend, setCrdBuf_pos, setPosBuf_pos]
  exact getBuf_set_ne _ _ _ _ (fun he => hm he.symm)

theorem stateAfterAppend_crd_ne (coords : List Nat) (s : Storage) (p lvl m : Nat)
    (hm : m ≠ lvl) :
    getBuf (stateAfterAppend coords s p lvl).crd m = getBuf s.crd m := by
  rw [stateAfterAppend, setCrdBuf_crd, setPosBuf_crd]
  exact getBuf_set_ne _ _ _ _ (fun he => hm he.symm)

theorem stateAfterAppend_crd_length (coords : List Nat) (s : Storage) (p lvl : Nat) :
    (stateAfterAppend coords s p lvl).crd.length = s.crd.length := by
  rw [stateAfterAppend, setCrdBuf_crd, setPosBuf_crd, List.length_set]

theorem stateAfterAppend_pos_length (coords : List Nat) (s : Storage) (p lvl : Nat) :
    (stateAfterAppend coords s p lvl).pos.length = s.pos.length := by
  rw [stateAfterAppend, setCrdBuf_pos, setPosBuf_pos, List.length_set]

/-! ### C5 machinery, part 5: the first insert establishes the invariant -/

theorem getD_take (xs : List Nat) (k j : Nat) (h : j < k) :
    (xs.take k).getD j 0 = xs.getD j 0 := by
  rw [List.getD_eq_getElem?_getD, List.getD_eq_getElem?_getD, List.getElem?_take,
    if_pos h]

theorem drop_head_lvlAt (sch : List Lvl) (l : Nat) (lv : Lvl) (rest' : List Lvl)
    (hdrop : sch.drop l = lv :: rest') : lvlAt sch l = lv := by
  have h0 : (sch.drop l)[0]? = some lv := by rw [hdrop]; simp
  rw [List.getElem?_drop] at h0
  rw [lvlAt, List.getD_eq_getElem?_getD, show l + 0 = l from rfl] at *
  rw [h0]
  rfl

theorem drop_cons_succ (sch : List Lvl) (l : Nat) (lv : Lvl) (rest' : List Lvl)
    (hdrop : sch.drop l = lv :: rest') : sch.drop (l + 1) = rest' := by
  rw [← List.tail_drop, hdrop]
  rfl

theorem drop_cons_length (sch : List Lvl) (l : Nat) (lv : Lvl) (rest' : List Lvl)
    (hdrop : sch.drop l = lv :: rest') : sch.length = l + 1 + rest'.length := by
  have := congrArg List.length hdrop
  rw [List.length_drop, List.length_cons] at this
  have hle : l ≤ sch.length := by
    by_contra hc
    rw [Nat.sub_eq_zero_of_le (by omega)] at this
    simp at this
  omega

/-- The first insert walked from a fresh state establishes the
insertion invariant along its own path. -/
theorem insertLoop_fresh (sch : List Lvl) (t : List Nat) :
    ∀ (rest : List Lvl) (l np p : Nat) (s : Storage),
      sch.drop l = rest → ValidSuffix rest → DenseOk rest l t →
      SInv0 rest l np s → p < np →
      SInv rest l np p t ((insertLoop sch t rest l s p).1) := by
  intro rest
  induction rest with
  | nil => intro l np p s _ _ _ _ _; trivial
  | cons lv rest' ih =>
    intro l np p s hdrop hval hdok hinv hp
    have hdrop' : sch.drop (l + 1) = rest' := drop_cons_succ sch l lv rest' hdrop
    have hlen : sch.length = l + 1 + rest'.length :=
      drop_cons_length sch l lv rest' hdrop
    simp only [ValidSuffix] at hval
    simp only [DenseOk] at hdok
    cases hd : lv.dlt with
    | dense =>
      simp only [SInv0, hd] at hinv
      simp only [SInv, hd]
      simp only [insertLoop, hd]
      have htl : t.getD l 0 < lv.size := hdok.1 (by rw [hd]; rfl)
      have hp' : lv.size * p + t.getD l 0 < np * lv.size := by
        have h1 : lv.size * p + t.getD l 0 < lv.size * (p + 1) := by
          rw [Nat.mul_add, Nat.mul_one]
          omega
        have h2 : lv.size * (p + 1) ≤ lv.size * np := Nat.mul_le_mul_left _ (by omega)
        rw [Nat.mul_comm np lv.size]
        omega
      exact ih (l + 1) (np * lv.size) _ s hdrop' hval.2 hdok.2 hinv hp'
    | singleton o u =>
      simp only [SInv, hd]
      simp only [insertLoop, hd]
      exact SInv_no_compressed rest' (l + 1) _ _ t _ (hval.1 (by rw [hd]; rfl))
    | compressed o u =>
      simp only [SInv0, hd] at hinv
      obtain ⟨a1, a2, a3, a4, acont⟩ := hinv
      have hplen : l < s.pos.length := by
        refine getBuf_ne_nil_lt _ _ ?_
        intro hnil
        rw [hnil] at a1
        simp at a1
      have hpc : presentCond sch t s p l = false := by
        rw [presentCond, getD_zero_of_all_zero _ p a2,
          getD_zero_of_all_zero _ (p + 1) a2]
        simp
      simp only [insertLoop, hd]
      rw [genCompressed_append sch t s p l hplen hpc]
      have hmsz : (getBuf s.crd l).length = 0 := by rw [a3]; rfl
      -- the state after the level-l append
      have hposB : ∀ x ∈ posAfterAppend (getBuf s.pos l) p
          (getBuf s.crd l).length l, x = 0 ∨ x = 1 := by
        intro x hx
        rw [posAfterAppend, hmsz] at hx
        rcases List.mem_or_eq_of_mem_set hx with hx1 | hx2
        · left
          split at hx1
          · exact a2 x hx1
          · rcases List.mem_or_eq_of_mem_set hx1 with hy | hy
            · exact a2 x hy
            · exact hy
        · right
          exact hx2
      have hpalen : (posAfterAppend (getBuf s.pos l) p (getBuf s.crd l).length l).length =
          np + 1 := by
        rw [posAfterAppend_length, a1]
      have hgetp1 : (posAfterAppend (getBuf s.pos l) p (getBuf s.crd l).length l).getD
          (p + 1) 0 = 1 := by
        rw [posAfterAppend, hmsz]
        refine getD_set_self_of_lt _ _ _ _ ?_
        split
        · rw [a1]; omega
        · rw [List.length_set, a1]; omega
      have hgetle : ∀ i, i ≠ p + 1 →
          (posAfterAppend (getBuf s.pos l) p (getBuf s.crd l).length l).getD i 0 = 0 := by
        intro i hi
        rw [posAfterAppend, hmsz, getD_set_of_ne _ _ _ _ _ (fun he => hi he.symm)]
        split
        · exact getD_zero_of_all_zero _ _ a2
        · rcases eq_or_ne i p with hip | hip
          · subst hip
            by_cases hin : i < (getBuf s.pos l).length
            · exact getD_set_self_of_lt _ _ _ _ hin
            · rw [List.set_eq_of_length_le (by omega)]
              exact getD_zero_of_all_zero _ _ a2
          · rw [getD_set_of_ne _ _ _ _ _ (fun he => hip he.symm)]
            exact getD_zero_of_all_zero _ _ a2
      -- facts about the final state's level-l buffers
      have hs3p := stateAfterAppend_pos_self t s p l hplen
      have hs3c := stateAfterAppend_crd_self t s p l a4
      rw [a3] at hs3c
      simp only [List.nil_append] at hs3c
      -- continuation state and IH
      have hnext : SInv rest' (l + 1) 1 0 t
          ((insertLoop sch t rest' (l + 1)
            (if l + 1 < sch.length
             then allocSchemeForRank sch (stateAfterAppend t s p l) (l + 1)
             else stateAfterAppend t s p l) ((getBuf s.crd l).length)).1) := by
        have hcont3 : SInv0 rest' (l + 1) 0 (stateAfterAppend t s p l) := by
          refine SInv0_congr rest' (l + 1) 0 s _ ?_ ?_ ?_ acont
          · intro m hm
            exact stateAfterAppend_pos_ne t s p l m (by omega)
          · intro m hm
            exact stateAfterAppend_crd_ne t s p l m (by omega)
          · exact stateAfterAppend_crd_length t s p l
        rw [hmsz]
        cases rest' with
        | nil => trivial
        | cons lv2 rest'' =>
          rw [if_pos (by rw [hlen, List.length_cons]; omega)]
          rw [allocSchemeForRank, hdrop']
          refine ih (l + 1) 1 0 _ hdrop' hval.2 hdok.2 ?_ (by omega)
          exact SInv0_allocExt (lv2 :: rest'') (l + 1) 0 1 _ hcont3
      -- assemble the compressed clause on the final state
      simp only [SInv, hd]
      have huntp : getBuf ((insertLoop sch t rest' (l + 1)
          (if l + 1 < sch.length
           then allocSchemeForRank sch (stateAfterAppend t s p l) (l + 1)
           else stateAfterAppend t s p l) ((getBuf s.crd l).length)).1).pos l =
          posAfterAppend (getBuf s.pos l) p (getBuf s.crd l).length l := by
        rw [insertLoop_pos_lt sch t rest' (l + 1) _ _ l (by omega)]
        split
        · rw [allocSchemeForRank, hdrop',
            allocSchemeLoop_pos_lt rest' (l + 1) 1 _ l (by omega), hs3p]
        · exact hs3p
      have huntc : getBuf ((insertLoop sch t rest' (l + 1)
          (if l + 1 < sch.length
           then allocSchemeForRank sch (stateAfterAppend t s p l) (l + 1)
           else stateAfterAppend t s p l) ((getBuf s.crd l).length)).1).crd l =
          [t.getD l 0] := by
        rw [insertLoop_crd_lt sch t rest' (l + 1) _ _ l (by omega)]
        split
        · rw [allocSchemeForRank, hdrop', allocSchemeLoop_crd, hs3c]
        · exact hs3c
      rw [huntp, huntc]
      refine ⟨hpalen, by omega, by simp, ?_, ?_, ?_, ?_, by simp, ?_⟩
      · rw [hgetp1]
        rfl
      · rw [hgetle p (by omega)]
        simp
      · intro i hi1 hi2
        exact hgetle i (by omega)
      · intro i hi
        rw [posClean_length, List.length_take] at hi
        have hik : i + 1 < p + 2 := by omega
        rw [posClean_getD_succ _ i (by rw [List.length_take]; omega)]
        split
        · exact Nat.le_refl _
        · have hz : (posClean ((posAfterAppend (getBuf s.pos l) p
              (getBuf s.crd l).length l).take (p + 2))).getD i 0 = 0 := by
            refine posClean_zero_prefix _ i (by rw [List.length_take]; omega) ?_
            intro j hj
            rw [getD_take _ _ _ (by omega)]
            exact hgetle j (by omega)
          rw [hz]
          exact Nat.zero_le _
      · simpa using hnext

/-! ### C5 machinery, part 6: ordered inserts preserve the invariant -/

theorem posClean_getD_eq_of_take_eq (L M : List Nat) (k j : Nat)
    (hk : L.take k = M.take k) (hj : j < k) :
    (posClean L).getD j 0 = (posClean M).getD j 0 := by
  have h1 : ((posClean L).take k).getD j 0 = ((posClean M).take k).getD j 0 := by
    rw [← posClean_take, ← posClean_take, hk]
  rw [getD_take _ _ _ hj, getD_take _ _ _ hj] at h1
  exact h1

theorem afterAppend_final_pos (sch : List Lvl) (t' : List Nat) (rest' : List Lvl)
    (l : Nat) (s3 : Storage) (q : Nat) (hdrop' : sch.drop (l + 1) = rest') :
    getBuf ((insertLoop sch t' rest' (l + 1)
      (if l + 1 < sch.length then allocSchemeForRank sch s3 (l + 1) else s3) q).1).pos l =
      getBuf s3.pos l := by
  rw [insertLoop_pos_lt sch t' rest' (l + 1) _ q l (by omega)]
  split
  · rw [allocSchemeForRank, hdrop',
      allocSchemeLoop_pos_lt rest' (l + 1) 1 _ l (by omega)]
  · rfl

theorem afterAppend_final_crd (sch : List Lvl) (t' : List Nat) (rest' : List Lvl)
    (l : Nat) (s3 : Storage) (q : Nat) (hdrop' : sch.drop (l + 1) = rest') :
    getBuf ((insertLoop sch t' rest' (l + 1)
      (if l + 1 < sch.length then allocSchemeForRank sch s3 (l + 1) else s3) q).1).crd l =
      getBuf s3.crd l := by
  rw [insertLoop_crd_lt sch t' rest' (l + 1) _ q l (by omega)]
  split
  · rw [allocSchemeForRank, hdrop', allocSchemeLoop_crd]
  · rfl

/-- An ordered insert into an invariant-satisfying state preserves the
invariant, re-rooted at the new insert's path.  At each level the new
insert's parent position either equals the previous frontier with the
remaining coordinates lexicographically no smaller, or lies strictly
beyond the frontier but within the parent slots. -/
theorem insertLoop_step (sch : List Lvl) (t t' : List Nat) :
    ∀ (rest : List Lvl) (l np p pOld : Nat) (s : Storage),
      sch.drop l = rest → ValidSuffix rest →
      DenseOk rest l t → DenseOk rest l t' →
      SInv rest l np pOld t s → pOld < np →
      ((p = pOld ∧ lexLeFrom rest l t t') ∨ (pOld < p ∧ p < np)) →
      SInv rest l np p t' ((insertLoop sch t' rest l s p).1) := by
  intro rest
  induction rest with
  | nil => intro l np p pOld s _ _ _ _ _ _ _; trivial
  | cons lv rest' ih =>
    intro l np p pOld s hdrop hval hdok hdok' hinv hpOld horder
    have hdrop' : sch.drop (l + 1) = rest' := drop_cons_succ sch l lv rest' hdrop
    have hlen : sch.length = l + 1 + rest'.length :=
      drop_cons_length sch l lv rest' hdrop
    have hlv : lvlAt sch l = lv := drop_head_lvlAt sch l lv rest' hdrop
    simp only [ValidSuffix] at hval
    simp only [DenseOk] at hdok hdok'
    cases hd : lv.dlt with
    | dense =>
      simp only [SInv, hd] at hinv ⊢
      simp only [insertLoop, hd]
      have htl : t.getD l 0 < lv.size := hdok.1 (by rw [hd]; rfl)
      have htl' : t'.getD l 0 < lv.size := hdok'.1 (by rw [hd]; rfl)
      have hmul : ∀ a b : Nat, a < b → lv.size * a + lv.size ≤ lv.size * b := by
        intro a b hab
        have := Nat.mul_le_mul_left lv.size (show a + 1 ≤ b by omega)
        rw [Nat.mul_add, Nat.mul_one] at this
        exact this
      have hnp' : lv.size * pOld + t.getD l 0 < np * lv.size := by
        have := hmul pOld np hpOld
        rw [Nat.mul_comm np lv.size]
        omega
      rcases horder with ⟨hpe, hlex⟩ | ⟨hgt, hlt⟩
      · subst hpe
        simp only [lexLeFrom] at hlex
        rcases hlex with hlt1 | ⟨heq1, hrec⟩
        · refine ih (l + 1) (np * lv.size) _ _ s hdrop' hval.2 hdok.2 hdok'.2
            hinv hnp' (Or.inr ⟨by omega, ?_⟩)
          have := hmul p np hpOld
          rw [Nat.mul_comm np lv.size]
          omega
        · rw [← heq1]
          exact ih (l + 1) (np * lv.size) _ _ s hdrop' hval.2 hdok.2 hdok'.2
            hinv hnp' (Or.inl ⟨rfl, hrec⟩)
      · refine ih (l + 1) (np * lv.size) _ _ s hdrop' hval.2 hdok.2 hdok'.2
          hinv hnp' (Or.inr ⟨?_, ?_⟩)
        · have := hmul pOld p hgt
          omega
        · have := hmul p np hlt
          rw [Nat.mul_comm np lv.size]
          omega
    | singleton o u =>
      simp only [SInv, hd]
      simp only [insertLoop, hd]
      exact SInv_no_compressed rest' (l + 1) _ _ t' _ (hval.1 (by rw [hd]; rfl))
    | compressed o u =>
      simp only [SInv, hd] at hinv
      obtain ⟨a1, a2, a3, a4, a5, a6, a7, a8, acont⟩ := hinv
      have hplen : l < s.pos.length := by
        refine getBuf_ne_nil_lt _ _ ?_
        intro hnil
        rw [hnil] at a1
        simp at a1
      have hclen : l < s.crd.length := by
        refine getBuf_ne_nil_lt _ _ ?_
        intro hnil
        rw [hnil] at a3
        simp at a3
      have hcleanold : (posClean ((getBuf s.pos l).take (pOld + 2))).getD (pOld + 1) 0 =
          (getBuf s.crd l).length := by
        rw [posClean_getD_succ _ pOld (by rw [List.length_take]; omega),
          getD_take _ _ _ (by omega), a4, if_neg (by omega)]
      simp only [insertLoop, hd]
      -- shared continuation builder for the two append paths
      have hnextGen : ∀ (s3 : Storage),
          SInv rest' (l + 1) (getBuf s.crd l).length
            ((getBuf s.crd l).length - 1) t s3 →
          SInv rest' (l + 1) ((getBuf s.crd l).length + 1) ((getBuf s.crd l).length) t'
            ((insertLoop sch t' rest' (l + 1)
              (if l + 1 < sch.length then allocSchemeForRank sch s3 (l + 1) else s3)
              ((getBuf s.crd l).length)).1) := by
        intro s3 hc3
        by_cases hcase : l + 1 < sch.length
        · rw [if_pos hcase, allocSchemeForRank, hdrop']
          refine ih (l + 1) _ _ _ _ hdrop' hval.2 hdok.2 hdok'.2
            (SInv_allocExt rest' (l + 1) _ 1 _ t s3 hc3) (by omega)
            (Or.inr ⟨by omega, by omega⟩)
        · have hnil : rest' = [] := by
            rw [hlen] at hcase
            cases rest' with
            | nil => rfl
            | cons x xs =>
              exfalso
              rw [List.length_cons] at hcase
              omega
          subst hnil
          trivial
      rcases horder with ⟨hpe, hlex⟩ | ⟨hgt, hplt⟩
      · -- same frontier parent
        subst hpe
        simp only [lexLeFrom] at hlex
        have hread1 : (getBuf s.pos l).getD p 0 < (getBuf s.pos l).getD (p + 1) 0 := by
          rw [a4]; exact a5
        by_cases hpres : u = true ∧ t.getD l 0 = t'.getD l 0
        · -- present fast path: state unchanged at this level
          have hpc : presentCond sch t' s p l = true := by
            rw [presentCond, hlv, hd, a4]
            simp only [DLT.isUnique]
            rw [hpres.1, a8, hpres.2]
            simp only [Bool.true_and, Bool.and_eq_true, decide_eq_true_eq]
            exact ⟨a5, trivial⟩
          rw [genCompressed_present sch t' s p l hpc]
          have hq : (getBuf s.pos l).getD (p + 1) 0 - 1 = (getBuf s.crd l).length - 1 := by
            rw [a4]
          rw [hq]
          simp only [SInv, hd]
          have hfp : getBuf ((insertLoop sch t' rest' (l + 1) s
              ((getBuf s.crd l).length - 1)).1).pos l = getBuf s.pos l :=
            insertLoop_pos_lt sch t' rest' (l + 1) s _ l (by omega)
          have hfc : getBuf ((insertLoop sch t' rest' (l + 1) s
              ((getBuf s.crd l).length - 1)).1).crd l = getBuf s.crd l :=
            insertLoop_crd_lt sch t' rest' (l + 1) s _ l (by omega)
          rw [hfp, hfc]
          have hrec : lexLeFrom rest' (l + 1) t t' := by
            rcases hlex with hlt1 | ⟨_, hrec⟩
            · omega
            · exact hrec
          refine ⟨a1, a2, a3, a4, a5, a6, a7, by rw [a8, hpres.2], ?_⟩
          exact ih (l + 1) _ _ _ s hdrop' hval.2 hdok.2 hdok'.2 acont
            (by omega) (Or.inl ⟨rfl, hrec⟩)
        · -- append at the frontier parent
          have hpc : presentCond sch t' s p l = false := by
            rw [presentCond, hlv, hd, a4]
            simp only [DLT.isUnique]
            rcases Decidable.em (u = true) with hu | hu
            · have hne : t.getD l 0 ≠ t'.getD l 0 := fun hcon => hpres ⟨hu, hcon⟩
              rw [hu, a8, decide_eq_false hne]
              simp
            · rw [Bool.not_eq_true] at hu
              rw [hu]
              simp
          rw [genCompressed_append sch t' s p l hplen hpc]
          have hpa : posAfterAppend (getBuf s.pos l) p (getBuf s.crd l).length l =
              (getBuf s.pos l).set (p + 1) ((getBuf s.crd l).length + 1) := by
            rw [posAfterAppend, if_pos (Or.inl hread1)]
          simp only [SInv, hd]
          rw [afterAppend_final_pos sch t' rest' l _ _ hdrop',
            afterAppend_final_crd sch t' rest' l _ _ hdrop',
            stateAfterAppend_pos_self t' s p l hplen,
            stateAfterAppend_crd_self t' s p l hclen, hpa]
          have hlset : ((getBuf s.pos l).set (p + 1)
              ((getBuf s.crd l).length + 1)).length = np + 1 := by
            rw [List.length_set, a1]
          refine ⟨hlset, by rw [hlset, ← a1]; exact a2, by simp, ?_, ?_, ?_, ?_, ?_, ?_⟩
          · rw [getD_set_self_of_lt _ _ _ _ a2, List.length_append,
              List.length_cons, List.length_nil]
          · rw [getD_set_of_ne _ _ _ _ _ (by omega), List.length_append,
              List.length_cons, List.length_nil]
            omega
          · intro i hi1 hi2
            rw [getD_set_of_ne _ _ _ _ _ (by omega)]
            rw [List.length_set] at hi2
            exact a6 i hi1 hi2
          · -- cleaned prefix stays non-decreasing after bumping the end slot
            intro i hi
            rw [posClean_length, List.length_take, List.length_set] at hi
            have hik : i + 1 < p + 2 := by omega
            have htk : ((getBuf s.pos l).set (p + 1)
                ((getBuf s.crd l).length + 1)).take (p + 2) =
                ((getBuf s.pos l).take (p + 2)).set (p + 1)
                  ((getBuf s.crd l).length + 1) := by
              exact take_set_of_lt _ _ _ _ (by omega)
            have hagree : ∀ j, j < p + 1 →
                (posClean (((getBuf s.pos l).set (p + 1)
                  ((getBuf s.crd l).length + 1)).take (p + 2))).getD j 0 =
                (posClean ((getBuf s.pos l).take (p + 2))).getD j 0 := by
              intro j hj
              refine posClean_getD_eq_of_take_eq _ _ (p + 1) j ?_ hj
              rw [htk, take_set_of_le _ _ _ _ (by omega)]
            by_cases hend : i + 1 = p + 1
            · rw [posClean_getD_succ _ i (by
                rw [List.length_take, List.length_set]; omega)]
              rw [show i + 1 = p + 1 from hend, getD_take _ _ _ (by omega),
                getD_set_self_of_lt _ _ _ _ (by omega)]
              rw [if_neg (by omega)]
              rw [show i = p from by omega, hagree p (by omega)]
              have h1 : (posClean ((getBuf s.pos l).take (p + 2))).getD p 0 ≤
                  (posClean ((getBuf s.pos l).take (p + 2))).getD (p + 1) 0 :=
                a7 p (by rw [posClean_length, List.length_take]; omega)
              rw [hcleanold] at h1
              omega
            · rw [hagree i (by omega), hagree (i + 1) (by omega)]
              exact a7 i (by rw [posClean_length, List.length_take]; omega)
          · rw [List.length_append, List.length_cons, List.length_nil]
            rw [show (getBuf s.crd l).length + (0 + 1) - 1 = (getBuf s.crd l).length
              from by omega]
            exact getD_append_last _ _
          · rw [List.length_append, List.length_cons, List.length_nil,
              show (getBuf s.crd l).length + (0 + 1) = (getBuf s.crd l).length + 1
                from by omega, Nat.add_sub_cancel]
            refine hnextGen _ (SInv_congr rest' (l + 1) _ _ t _ _ ?_ ?_ acont)
            · intro m hm
              exact stateAfterAppend_pos_ne t' s p l m (by omega)
            · intro m hm
              exact stateAfterAppend_crd_ne t' s p l m (by omega)
      · -- strictly advancing parent: the range at `p` is still unopened
        have hread0 : (getBuf s.pos l).getD (p + 1) 0 = 0 :=
          a6 (p + 1) (by omega) (by omega)
        have hpc : presentCond sch t' s p l = false := by
          rw [presentCond, hread0]
          simp
        rw [genCompressed_append sch t' s p l hplen hpc]
        have hXlen : (posAfterAppend (getBuf s.pos l) p
            (getBuf s.crd l).length l).length = np + 1 := by
          rw [posAfterAppend_length, a1]
        have hXtop : (posAfterAppend (getBuf s.pos l) p
            (getBuf s.crd l).length l).getD (p + 1) 0 =
            (getBuf s.crd l).length + 1 := by
          rw [posAfterAppend]
          refine getD_set_self_of_lt _ _ _ _ ?_
          split
          · rw [a1]; omega
          · rw [List.length_set, a1]; omega
        have hXpOld1 : (posAfterAppend (getBuf s.pos l) p
            (getBuf s.crd l).length l).getD (pOld + 1) 0 =
            (getBuf s.crd l).length := by
          rw [posAfterAppend, getD_set_of_ne _ _ _ _ _ (by omega)]
          split
          · exact a4
          · rcases eq_or_ne p (pOld + 1) with hp1 | hp1
            · rw [hp1, getD_set_self_of_lt _ _ _ _ (by rw [a1]; omega)]
            · rw [getD_set_of_ne _ _ _ _ _ hp1]
              exact a4
        have hXmid : ∀ m, pOld + 2 ≤ m → m ≤ p →
            (posAfterAppend (getBuf s.pos l) p (getBuf s.crd l).length l).getD m 0 = 0 ∨
            (posAfterAppend (getBuf s.pos l) p (getBuf s.crd l).length l).getD m 0 =
              (getBuf s.crd l).length := by
          intro m hm1 hm2
          rw [posAfterAppend, getD_set_of_ne _ _ _ _ _ (by omega)]
          split
          · left
            exact a6 m hm1 (by rw [a1]; omega)
          · rcases eq_or_ne m p with hmp | hmp
            · right
              rw [hmp, getD_set_self_of_lt _ _ _ _ (by rw [a1]; omega)]
            · left
              rw [getD_set_of_ne _ _ _ _ _ (fun he => hmp he.symm)]
              exact a6 m hm1 (by rw [a1]; omega)
        have hXp_le : (posAfterAppend (getBuf s.pos l) p
            (getBuf s.crd l).length l).getD p 0 ≤ (getBuf s.crd l).length := by
          rw [posAfterAppend, getD_set_of_ne _ _ _ _ _ (by omega)]
          split
          · rcases eq_or_ne p (pOld + 1) with hp1 | hp1
            · rw [hp1, a4]
            · rw [a6 p (by omega) (by rw [a1]; omega)]
              omega
          · rw [getD_set_self_of_lt _ _ _ _ (by rw [a1]; omega)]
        have hX6 : ∀ i, p + 2 ≤ i → i < np + 1 →
            (posAfterAppend (getBuf s.pos l) p
              (getBuf s.crd l).length l).getD i 0 = 0 := by
          intro i hi1 hi2
          have h0 : (getBuf s.pos l).getD i 0 = 0 :=
            a6 i (by omega) (by rw [a1]; omega)
          rw [posAfterAppend, getD_set_of_ne _ _ _ _ _ (by omega)]
          split
          · exact h0
          · rw [getD_set_of_ne _ _ _ _ _ (by omega)]
            exact h0
        have hXtake : (posAfterAppend (getBuf s.pos l) p
            (getBuf s.crd l).length l).take (pOld + 1) =
            (getBuf s.pos l).take (pOld + 1) := by
          rw [posAfterAppend, take_set_of_le _ _ _ _ (by omega)]
          split
          · rfl
          · exact take_set_of_le _ _ _ _ (by omega)
        have hagree : ∀ j, j < pOld + 1 →
            (posClean ((posAfterAppend (getBuf s.pos l) p
              (getBuf s.crd l).length l).take (p + 2))).getD j 0 =
            (posClean ((getBuf s.pos l).take (pOld + 2))).getD j 0 := by
          intro j hj
          refine posClean_getD_eq_of_take_eq _ _ (pOld + 1) j ?_ hj
          rw [List.take_take, List.take_take,
            Nat.min_eq_left (by omega : pOld + 1 ≤ p + 2),
            Nat.min_eq_left (by omega : pOld + 1 ≤ pOld + 2)]
          exact hXtake
        have hchain : ∀ j, pOld + 1 ≤ j → j ≤ p →
            (posClean ((posAfterAppend (getBuf s.pos l) p
              (getBuf s.crd l).length l).take (p + 2))).getD j 0 =
            (getBuf s.crd l).length := by
          intro j hj
          induction j, hj using Nat.le_induction with
          | base =>
            intro hjp
            rw [posClean_getD_succ _ pOld (by rw [List.length_take, hXlen]; omega),
              getD_take _ _ _ (by omega), hXpOld1, if_neg (by omega)]
          | succ j hj ihj =>
            intro hjp
            rw [posClean_getD_succ _ j (by rw [List.length_take, hXlen]; omega),
              getD_take _ _ _ (by omega)]
            rcases hXmid (j + 1) (by omega) hjp with h0 | hn
            · rw [h0, if_pos rfl]
              exact ihj (by omega)
            · rw [hn, if_neg (by omega)]
        simp only [SInv, hd]
        rw [afterAppend_final_pos sch t' rest' l _ _ hdrop',
          afterAppend_final_crd sch t' rest' l _ _ hdrop',
          stateAfterAppend_pos_self t' s p l hplen,
          stateAfterAppend_crd_self t' s p l hclen]
        refine ⟨hXlen, by rw [hXlen]; omega, by simp, ?_, ?_, ?_, ?_, ?_, ?_⟩
        · rw [hXtop, List.length_append, List.length_cons, List.length_nil]
        · rw [List.length_append, List.length_cons, List.length_nil]
          have := hXp_le
          omega
        · intro i hi1 hi2
          rw [hXlen] at hi2
          exact hX6 i hi1 hi2
        · intro i hi
          rw [posClean_length, List.length_take, hXlen] at hi
          by_cases hc1 : i + 1 ≤ pOld
          · rw [hagree i (by omega), hagree (i + 1) (by omega)]
            exact a7 i (by rw [posClean_length, List.length_take]; omega)
          · by_cases hc2 : i + 1 = pOld + 1
            · rw [hc2, hchain (pOld + 1) (by omega) (by omega),
                show i = pOld from by omega, hagree pOld (by omega)]
              have h1 : (posClean ((getBuf s.pos l).take (pOld + 2))).getD pOld 0 ≤
                  (posClean ((getBuf s.pos l).take (pOld + 2))).getD (pOld + 1) 0 :=
                a7 pOld (by rw [posClean_length, List.length_take]; omega)
              rw [hcleanold] at h1
              exact h1
            · by_cases hc3 : i + 1 ≤ p
              · have e1 := hchain i (by omega) (by omega)
                have e2 := hchain (i + 1) (by omega) hc3
                omega
              · rw [show i = p from by omega, hchain p (by omega) (Nat.le_refl p),
                  posClean_getD_succ _ p (by rw [List.length_take, hXlen]; omega),
                  getD_take _ _ _ (by omega), hXtop, if_neg (by omega)]
                omega
        · rw [List.length_append, List.length_cons, List.length_nil,
            show (getBuf s.crd l).length + (0 + 1) - 1 = (getBuf s.crd l).length
              from by omega]
          exact getD_append_last _ _
        · rw [List.length_append, List.length_cons, List.length_nil,
            show (getBuf s.crd l).length + (0 + 1) = (getBuf s.crd l).length + 1
              from by omega, Nat.add_sub_cancel]
          refine hnextGen _ (SInv_congr rest' (l + 1) _ _ t _ _ ?_ ?_ acont)
          · intro m hm
            exact stateAfterAppend_pos_ne t' s p l m (by omega)
          · intro m hm
            exact stateAfterAppend_crd_ne t' s p l m (by omega)

/-! ### C5 machinery, part 7: the full insertion pipeline -/

theorem SInv_setVals (rest : List Lvl) (l np p : Nat) (t : List Nat) (s : Storage)
    (v : List Nat) (h : SInv rest l np p t s) : SInv rest l np p t (s.setVals v) :=
  SInv_congr rest l np p t s _ (fun _ _ => rfl) (fun _ _ => rfl) h

/-- The first `insert` into freshly allocated storage establishes the
root invariant. -/
theorem insert_first_SInv (sch : List Lvl) (t : List Nat) (v : Nat)
    (hval : ValidSuffix sch) (hdok : DenseOk sch 0 t) :
    SInv sch 0 1 0 t (insert sch (createAllocFields sch) t v) := by
  simp only [insert]
  have h := insertLoop_fresh sch t sch 0 1 0 (createAllocFields sch)
    (List.drop_zero sch) hval hdok (SInv0_createAllocFields sch) (by omega)
  split
  · exact SInv_setVals _ _ _ _ _ _ _ h
  · exact SInv_setVals _ _ _ _ _ _ _ h

/-- A subsequent ordered `insert` preserves the root invariant. -/
theorem insert_keeps_SInv (sch : List Lvl) (t t' : List Nat) (v : Nat) (s : Storage)
    (hval : ValidSuffix sch) (hdok : DenseOk sch 0 t) (hdok' : DenseOk sch 0 t')
    (hinv : SInv sch 0 1 0 t s) (hlex : lexLeFrom sch 0 t t') :
    SInv sch 0 1 0 t' (insert sch s t' v) := by
  simp only [insert]
  have h := insertLoop_step sch t t' sch 0 1 0 0 s (List.drop_zero sch) hval hdok hdok'
    hinv (by omega) (Or.inl ⟨rfl, hlex⟩)
  split
  · exact SInv_setVals _ _ _ _ _ _ _ h
  · exact SInv_setVals _ _ _ _ _ _ _ h

theorem insertAll_keeps_SInv (sch : List Lvl) (hval : ValidSuffix sch) :
    ∀ (entries : List (List Nat × Nat)) (t : List Nat) (s : Storage),
      SInv sch 0 1 0 t s → DenseOk sch 0 t →
      (∀ e ∈ entries, DenseOk sch 0 e.1) →
      List.Chain' (lexLeFrom sch 0) (t :: entries.map Prod.fst) →
      ∃ t2, SInv sch 0 1 0 t2 (insertAll sch s entries) := by
  intro entries
  induction entries with
  | nil => intro t s hinv _ _ _; exact ⟨t, hinv⟩
  | cons e es ih =>
    intro t s hinv hdok hdoks hchain
    rw [show insertAll sch s (e :: es) =
      insertAll sch (insert sch s e.1 e.2) es from rfl]
    simp only [List.map_cons] at hchain
    have hlex : lexLeFrom sch 0 t e.1 := (List.chain'_cons.mp hchain).1
    have hchain' := (List.chain'_cons.mp hchain).2
    have hde : DenseOk sch 0 e.1 := hdoks e (List.mem_cons_self e es)
    exact ih e.1 (insert sch s e.1 e.2)
      (insert_keeps_SInv sch t e.1 e.2 s hval hdok hde hinv hlex) hde
      (fun x hx => hdoks x (List.mem_cons_of_mem e hx)) hchain'

/-- The number of parent slots of a level: the root has a single parent
slot, a dense parent multiplies the slots by its size, and a compressed
or singleton parent contributes one slot per stored coordinate. -/
def parentsCount (sch : List Lvl) (s : Storage) : Nat → Nat
  | 0 => 1
  | m + 1 =>
    match (lvlAt sch m).dlt with
    | .dense => parentsCount sch s m * (lvlAt sch m).size
    | _ => (getBuf s.crd m).length

theorem SInv_walk (sch : List Lvl) (t : List Nat) :
    ∀ (rest : List Lvl) (l np p : Nat) (s : Storage),
      sch.drop l = rest → SInv rest l np p t s → np = parentsCount sch s l →
      ∀ m, l ≤ m → m < sch.length → (lvlAt sch m).dlt.isCompressed = true →
      (getBuf s.pos m).length = parentsCount sch s m + 1 ∧
      NonDecr (posClean (getBuf s.pos m)) := by
  intro rest
  induction rest with
  | nil =>
    intro l np p s hdrop _ _ m hlm hm _
    exfalso
    have hlen := congrArg List.length hdrop
    rw [List.length_drop] at hlen
    simp only [List.length_nil] at hlen
    omega
  | cons lv rest' ih =>
    intro l np p s hdrop hinv hnp m hlm hm hcm
    have hdrop' : sch.drop (l + 1) = rest' := drop_cons_succ sch l lv rest' hdrop
    have hlv : lvlAt sch l = lv := drop_head_lvlAt sch l lv rest' hdrop
    rcases eq_or_ne m l with hml | hml
    · subst hml
      have hd : lv.dlt.isCompressed = true := by rw [← hlv]; exact hcm
      cases hdd : lv.dlt with
      | dense => rw [hdd] at hd; simp [DLT.isCompressed] at hd
      | singleton o u => rw [hdd] at hd; simp [DLT.isCompressed] at hd
      | compressed o u =>
        simp only [SInv, hdd] at hinv
        obtain ⟨a1, a2, a3, a4, a5, a6, a7, a8, acont⟩ := hinv
        refine ⟨by rw [a1, hnp], ?_⟩
        intro i hi
        rw [posClean_length] at hi
        by_cases hil : i + 1 < p + 2
        · have hagree : ∀ j, j < p + 2 →
              (posClean (getBuf s.pos m)).getD j 0 =
              (posClean ((getBuf s.pos m).take (p + 2))).getD j 0 := by
            intro j hj
            rw [posClean_take, getD_take _ _ _ hj]
          rw [hagree i (by omega), hagree (i + 1) (by omega)]
          exact a7 i (by rw [posClean_length, List.length_take]; omega)
        · rw [posClean_getD_succ _ i hi, a6 (i + 1) (by omega) hi, if_pos rfl]
    · have hm' : l + 1 ≤ m := by omega
      cases hdd : lv.dlt with
      | dense =>
        simp only [SInv, hdd] at hinv
        refine ih (l + 1) (np * lv.size) _ s hdrop' hinv ?_ m hm' hm hcm
        simp only [parentsCount, hlv, hdd]
        rw [hnp]
      | singleton o u =>
        simp only [SInv, hdd] at hinv
        refine ih (l + 1) (getBuf s.crd l).length _ s hdrop' hinv ?_ m hm' hm hcm
        simp only [parentsCount, hlv, hdd]
      | compressed o u =>
        simp only [SInv, hdd] at hinv
        refine ih (l + 1) (getBuf s.crd l).length _ s hdrop'
          hinv.2.2.2.2.2.2.2.2 ?_ m hm' hm hcm
        simp only [parentsCount, hlv, hdd]

theorem SInv0_walk (sch : List Lvl) :
    ∀ (rest : List Lvl) (l np : Nat) (s : Storage),
      sch.drop l = rest → SInv0 rest l np s → np = parentsCount sch s l →
      ∀ m, l ≤ m → m < sch.length → (lvlAt sch m).dlt.isCompressed = true →
      (getBuf s.pos m).length = parentsCount sch s m + 1 ∧
      NonDecr (posClean (getBuf s.pos m)) ∧
      (∀ x ∈ getBuf s.pos m, x = 0) := by
  intro rest
  induction rest with
  | nil =>
    intro l np s hdrop _ _ m hlm hm _
    exfalso
    have hlen := congrArg List.length hdrop
    rw [List.length_drop] at hlen
    simp only [List.length_nil] at hlen
    omega
  | cons lv rest' ih =>
    intro l np s hdrop hinv hnp m hlm hm hcm
    have hdrop' : sch.drop (l + 1) = rest' := drop_cons_succ sch l lv rest' hdrop
    have hlv : lvlAt sch l = lv := drop_head_lvlAt sch l lv rest' hdrop
    rcases eq_or_ne m l with hml | hml
    · subst hml
      have hd : lv.dlt.isCompressed = true := by rw [← hlv]; exact hcm
      cases hdd : lv.dlt with
      | dense => rw [hdd] at hd; simp [DLT.isCompressed] at hd
      | singleton o u => rw [hdd] at hd; simp [DLT.isCompressed] at hd
      | compressed o u =>
        simp only [SInv0, hdd] at hinv
        obtain ⟨a1, a2, a3, a4, acont⟩ := hinv
        refine ⟨by rw [a1, hnp], ?_, a2⟩
        intro i hi
        rw [posClean_length] at hi
        rw [posClean_getD_succ _ i hi, getD_zero_of_all_zero _ (i + 1) a2,
          if_pos rfl]
    · have hm' : l + 1 ≤ m := by omega
      cases hdd : lv.dlt with
      | dense =>
        simp only [SInv0, hdd] at hinv
        refine ih (l + 1) (np * lv.size) s hdrop' hinv ?_ m hm' hm hcm
        simp only [parentsCount, hlv, hdd]
        rw [hnp]
      | singleton o u =>
        simp only [SInv0, hdd] at hinv
        refine ih (l + 1) 0 s hdrop' hinv.2 ?_ m hm' hm hcm
        simp only [parentsCount, hlv, hdd]
        rw [hinv.1, List.length_nil]
      | compressed o u =>
        simp only [SInv0, hdd] at hinv
        refine ih (l + 1) 0 s hdrop' hinv.2.2.2.2 ?_ m hm' hm hcm
        simp only [parentsCount, hlv, hdd]
        rw [hinv.2.2.1, List.length_nil]

/-- At a compressed root level the frontier's raw position pair is
already ordered, so the untouched level-0 array is non-decreasing. -/
theorem SInv_zero_raw (sch : List Lvl) (t : List Nat) (s : Storage)
    (hlen : 0 < sch.length) (hc : (lvlAt sch 0).dlt.isCompressed = true)
    (hinv : SInv sch 0 1 0 t s) : NonDecr (getBuf s.pos 0) := by
  cases sch with
  | nil => simp at hlen
  | cons lv rest =>
    have hlv : lvlAt (lv :: rest) 0 = lv := rfl
    rw [hlv] at hc
    cases hdd : lv.dlt with
    | dense => rw [hdd] at hc; simp [DLT.isCompressed] at hc
    | singleton o u => rw [hdd] at hc; simp [DLT.isCompressed] at hc
    | compressed o u =>
      simp only [SInv, hdd] at hinv
      obtain ⟨a1, a2, a3, a4, a5, -, -, -, -⟩ := hinv
      intro i hi
      rw [a1] at hi
      have hi0 : i = 0 := by omega
      subst hi0
      rw [a4]
      omega

theorem parentsCount_congr (sch : List Lvl) (s s' : Storage)
    (h : ∀ m, getBuf s'.crd m = getBuf s.crd m) :
    ∀ l, parentsCount sch s' l = parentsCount sch s l := by
  intro l
  induction l with
  | zero => rfl
  | succ m ih =>
    simp only [parentsCount]
    cases (lvlAt sch m).dlt with
    | dense => rw [ih]
    | singleton o u => rw [h m]
    | compressed o u => rw [h m]

/-- C5: for every compressed level, after any sequence of ordered
in-bounds inserts into freshly allocated storage followed by the
`genEndInsert` finalize cleanup, the level's position array is
non-decreasing across its occupied slots and its occupied length equals
the number of parent slots plus one. -/
theorem c5_position_monotone (sch : List Lvl) (entries : List (List Nat × Nat))
    (l : Nat) (hval : ValidSuffix sch)
    (hdoks : ∀ e ∈ entries, DenseOk sch 0 e.1)
    (hchain : List.Chain' (lexLeFrom sch 0) (entries.map Prod.fst))
    (hl : l < sch.length) (hc : (lvlAt sch l).dlt.isCompressed = true) :
    NonDecr (getBuf (endInsert sch
      (insertAll sch (createAllocFields sch) entries)).pos l) ∧
    (getBuf (endInsert sch
      (insertAll sch (createAllocFields sch) entries)).pos l).length =
      parentsCount sch (endInsert sch
        (insertAll sch (createAllocFields sch) entries)) l + 1 := by
  have hpc : parentsCount sch (endInsert sch
      (insertAll sch (createAllocFields sch) entries)) l =
      parentsCount sch (insertAll sch (createAllocFields sch) entries) l := by
    refine parentsCount_congr sch _ _ ?_ l
    intro m
    rw [endInsert, endInsertLoop_crd]
  have hfacts : (getBuf (insertAll sch (createAllocFields sch) entries).pos l).length =
      parentsCount sch (insertAll sch (createAllocFields sch) entries) l + 1 ∧
      NonDecr (posClean (getBuf (insertAll sch (createAllocFields sch) entries).pos l)) ∧
      (l = 0 → NonDecr (getBuf (insertAll sch (createAllocFields sch) entries).pos l)) := by
    cases entries with
    | nil =>
      rw [show insertAll sch (createAllocFields sch) [] = createAllocFields sch
        from rfl]
      have hw := SInv0_walk sch sch 0 1 (createAllocFields sch) (List.drop_zero sch)
        (SInv0_createAllocFields sch) rfl l (by omega) hl hc
      refine ⟨hw.1, hw.2.1, fun _ => ?_⟩
      intro i hi
      rw [getD_zero_of_all_zero _ i hw.2.2, getD_zero_of_all_zero _ (i + 1) hw.2.2]
    | cons e es =>
      rw [show insertAll sch (createAllocFields sch) (e :: es) =
        insertAll sch (insert sch (createAllocFields sch) e.1 e.2) es from rfl]
      have h0 := insert_first_SInv sch e.1 e.2 hval (hdoks e (List.mem_cons_self e es))
      simp only [List.map_cons] at hchain
      obtain ⟨t2, hinv⟩ := insertAll_keeps_SInv sch hval es e.1 _ h0
        (hdoks e (List.mem_cons_self e es))
        (fun x hx => hdoks x (List.mem_cons_of_mem e hx)) hchain
      have hw := SInv_walk sch t2 sch 0 1 0 _ (List.drop_zero sch) hinv rfl l
        (by omega) hl hc
      refine ⟨hw.1, hw.2, fun hl0 => ?_⟩
      subst hl0
      exact SInv_zero_raw sch t2 _ (by omega) hc hinv
  rw [hpc, endInsert, endInsertLoop_posBuf]
  by_cases hl0 : 0 < l
  · rw [if_pos ⟨Nat.zero_le l, by omega, by exact hc, hl0⟩]
    exact ⟨hfacts.2.1, by rw [posClean_length]; exact hfacts.1⟩
  · rw [if_neg (fun hcon => hl0 hcon.2.2.2)]
    exact ⟨hfacts.2.2 (by omega), hfacts.1⟩

theorem c5_position_monotone_witness :
    NonDecr (getBuf (endInsert schemeDC (insertAll schemeDC (createAllocFields schemeDC)
      [([0, 0], 1), ([0, 2], 2), ([2, 1], 3)])).pos 1) ∧
    (getBuf (endInsert schemeDC (insertAll schemeDC (createAllocFields schemeDC)
      [([0, 0], 1), ([0, 2], 2), ([2, 1], 3)])).pos 1).length =
      parentsCount schemeDC (endInsert schemeDC (insertAll schemeDC
        (createAllocFields schemeDC) [([0, 0], 1), ([0, 2], 2), ([2, 1], 3)])) 1 + 1 :=
  c5_position_monotone schemeDC [([0, 0], 1), ([0, 2], 2), ([2, 1], 3)] 1
    ⟨fun h => by simp [schemeDC, DLT.isSingleton] at h,
     fun h => by simp [schemeDC, DLT.isSingleton] at h, trivial⟩
    (by
      intro e he
      simp only [List.mem_cons, List.not_mem_nil, or_false] at he
      rcases he with h | h | h <;> subst h <;>
        exact ⟨fun _ => by decide, fun _ => by decide, trivial⟩)
    (List.chain'_cons.mpr ⟨Or.inr ⟨rfl, Or.inl (by decide)⟩,
      List.chain'_cons.mpr ⟨Or.inl (by decide), List.chain'_singleton _⟩⟩)
    (by decide) rfl

/-! ### C2 amended: the duplicate insert only appends its value -/

/-- Re-inserting the tuple the invariant tracks takes the already-present
fast path at every level: the storage is returned unchanged. -/
theorem insertLoop_same (sch : List Lvl) (t : List Nat) :
    ∀ (rest : List Lvl) (l np p : Nat) (s : Storage),
      sch.drop l = rest →
      (∀ lv ∈ rest, lv.dlt.isSingleton = false ∧
        (lv.dlt.isCompressed = true → lv.dlt.isUnique = true)) →
      SInv rest l np p t s →
      (insertLoop sch t rest l s p).1 = s := by
  intro rest
  induction rest with
  | nil => intro l np p s _ _ _; rfl
  | cons lv rest' ih =>
    intro l np p s hdrop hall hinv
    have hdrop' : sch.drop (l + 1) = rest' := drop_cons_succ sch l lv rest' hdrop
    have hlv : lvlAt sch l = lv := drop_head_lvlAt sch l lv rest' hdrop
    have hall' : ∀ lv2 ∈ rest', lv2.dlt.isSingleton = false ∧
        (lv2.dlt.isCompressed = true → lv2.dlt.isUnique = true) :=
      fun lv2 h2 => hall lv2 (List.mem_cons_of_mem lv h2)
    cases hd : lv.dlt with
    | dense =>
      simp only [SInv, hd] at hinv
      simp only [insertLoop, hd]
      exact ih (l + 1) (np * lv.size) _ s hdrop' hall' hinv
    | singleton o u =>
      have h := (hall lv (List.mem_cons_self lv rest')).1
      rw [hd] at h
      simp [DLT.isSingleton] at h
    | compressed o u =>
      simp only [SInv, hd] at hinv
      obtain ⟨a1, a2, a3, a4, a5, a6, a7, a8, acont⟩ := hinv
      have hu : u = true := by
        have h := (hall lv (List.mem_cons_self lv rest')).2
        rw [hd] at h
        exact h rfl
      have hpc : presentCond sch t s p l = true := by
        rw [presentCond, hlv, hd, a4]
        simp only [DLT.isUnique]
        rw [hu, a8]
        simp only [Bool.true_and, Bool.and_eq_true, decide_eq_true_eq]
        exact ⟨a5, trivial⟩
      simp only [insertLoop, hd]
      rw [genCompressed_present sch t s p l hpc]
      have hq : (getBuf s.pos l).getD (p + 1) 0 - 1 = (getBuf s.crd l).length - 1 := by
        rw [a4]
      rw [hq]
      exact ih (l + 1) (getBuf s.crd l).length _ s hdrop' hall' acont

/-- C2 (amended): on a scheme of dense and unique compressed levels whose
last level is not dense, inserting the same full coordinate tuple twice
in sequence does not overwrite: the position and coordinate buffers are
exactly those of the single insert (no entry is duplicated there), and
the duplicate's value is appended to the value buffer, which therefore
grows by one entry. -/
theorem c2_duplicate_insert_appends (sch : List Lvl) (t : List Nat) (v1 v2 : Nat)
    (hval : ValidSuffix sch) (hdok : DenseOk sch 0 t)
    (hall : ∀ lv ∈ sch, lv.dlt.isSingleton = false ∧
      (lv.dlt.isCompressed = true → lv.dlt.isUnique = true))
    (hlast : lastIsDense sch = false) :
    insert sch (insert sch (createAllocFields sch) t v1) t v2 =
      (insert sch (createAllocFields sch) t v1).setVals
        ((insert sch (createAllocFields sch) t v1).vals ++ [v2]) := by
  have hinv := insert_first_SInv sch t v1 hval hdok
  have hsame := insertLoop_same sch t sch 0 1 0 _ (List.drop_zero sch) hall hinv
  conv_lhs => rw [insert]
  rw [hlast]
  simp only [Bool.false_eq_true, if_false]
  rw [hsame]

/-- Witness for the amended C2 at a concrete input: one unique compressed
level of size 3, tuple (1), values 5 then 7. -/
theorem c2_duplicate_insert_appends_witness :
    insert schemeCU (insert schemeCU (createAllocFields schemeCU) [1] 5) [1] 7 =
      (insert schemeCU (createAllocFields schemeCU) [1] 5).setVals
        ((insert schemeCU (createAllocFields schemeCU) [1] 5).vals ++ [7]) :=
  c2_duplicate_insert_appends schemeCU [1] 5 7
    ⟨fun h => by simp [DLT.isSingleton] at h, trivial⟩
    ⟨fun h => by simp [DLT.isDense] at h, trivial⟩
    (by
      intro lv h
      simp only [schemeCU, List.mem_singleton] at h
      subst h
      exact ⟨rfl, fun _ => rfl⟩)
    rfl

end SparseCodegen
